import Mathlib

/-!
Verification development for the CSTV (Cumulative Support Transfer Voting)
participatory-budgeting rule of `pabutools/rules/cstv.py`.

The donation ledger of the source is a list of Python dicts, one per donor,
mapping projects to rational donation amounts.  Projects are hashed and
compared by their name, so a dict keyed by projects behaves exactly like a
dict keyed by project names; we therefore model one donor's dict as an
association list from project names (natural numbers) to exact rationals,
which is the `FRACTION = "gmpy2"` exact arithmetic mode, the default one.
-/

namespace CSTV

/-- A project of the instance: a name (the identity key used for hashing and
equality in the source) and a cost. -/
structure Project where
  name : ℕ
  cost : ℚ
deriving DecidableEq, Repr

/-- One donor's dict of the donation ledger: an association list from project
names to current donation amounts, in dict insertion order. -/
abbrev Donor := List (ℕ × ℚ)

/-- dict lookup `donor.get(k, 0)` and `donor[k]` (the keys present are always
exactly the instance's projects, so both accesses agree). -/
def dget : Donor → ℕ → ℚ
  | [], _ => 0
  | kv :: rest, k => if kv.1 = k then kv.2 else dget rest k

/-- dict assignment `donor[k] = v`: replaces the value at the first entry with
key `k`, leaving the dict unchanged when the key is absent. -/
def dset : Donor → ℕ → ℚ → Donor
  | [], _, _ => []
  | kv :: rest, k, v => if kv.1 = k then (k, v) :: rest else kv :: dset rest k v

/-- Python `sum(donor.values())`. -/
def dsum (d : Donor) : ℚ := (d.map Prod.snd).sum

/-- Python `donor.keys()` in iteration order. -/
def dkeys (d : Donor) : List ℕ := d.map Prod.fst

@[simp] theorem dget_nil (k : ℕ) : dget [] k = 0 := rfl

@[simp] theorem dget_cons (kv : ℕ × ℚ) (rest : Donor) (k : ℕ) :
    dget (kv :: rest) k = if kv.1 = k then kv.2 else dget rest k := rfl

@[simp] theorem dset_nil (k : ℕ) (v : ℚ) : dset [] k v = [] := rfl

@[simp] theorem dset_cons (kv : ℕ × ℚ) (rest : Donor) (k : ℕ) (v : ℚ) :
    dset (kv :: rest) k v = if kv.1 = k then (k, v) :: rest else kv :: dset rest k v := rfl

@[simp] theorem dsum_nil : dsum ([] : Donor) = 0 := rfl

theorem dsum_cons (kv : ℕ × ℚ) (rest : Donor) : dsum (kv :: rest) = kv.2 + dsum rest := by
  simp [dsum]

@[simp] theorem dkeys_nil : dkeys ([] : Donor) = [] := rfl

@[simp] theorem dkeys_cons (kv : ℕ × ℚ) (rest : Donor) :
    dkeys (kv :: rest) = kv.1 :: dkeys rest := rfl

theorem dkeys_dset (d : Donor) (k : ℕ) (v : ℚ) : dkeys (dset d k v) = dkeys d := by
  induction d with
  | nil => rfl
  | cons kv rest ih =>
      by_cases h : kv.1 = k
      · simp [dkeys, h]
      · simp only [dset_cons, if_neg h, dkeys_cons, ih]

theorem dget_eq_zero_of_not_mem (d : Donor) (k : ℕ) (h : k ∉ dkeys d) : dget d k = 0 := by
  induction d with
  | nil => rfl
  | cons kv rest ih =>
      simp only [dkeys_cons, List.mem_cons, not_or] at h
      have hne : ¬ kv.1 = k := fun he => h.1 he.symm
      simp only [dget_cons, if_neg hne]
      exact ih h.2

theorem dget_dset_self (d : Donor) (k : ℕ) (v : ℚ) (h : k ∈ dkeys d) :
    dget (dset d k v) k = v := by
  induction d with
  | nil => simp [dkeys] at h
  | cons kv rest ih =>
      by_cases he : kv.1 = k
      · simp [he]
      · simp only [dkeys_cons, List.mem_cons] at h
        rcases h with h | h
        · exact absurd h.symm he
        · simp only [dset_cons, if_neg he, dget_cons, if_neg he]
          exact ih h

theorem dget_dset_of_not_mem (d : Donor) (k : ℕ) (v : ℚ) (h : k ∉ dkeys d) :
    dset d k v = d := by
  induction d with
  | nil => rfl
  | cons kv rest ih =>
      simp only [dkeys_cons, List.mem_cons, not_or] at h
      have hne : ¬ kv.1 = k := fun he => h.1 he.symm
      simp only [dset_cons, if_neg hne]
      rw [ih h.2]

theorem dget_dset_ne (d : Donor) (k k' : ℕ) (v : ℚ) (h : k' ≠ k) :
    dget (dset d k v) k' = dget d k' := by
  induction d with
  | nil => rfl
  | cons kv rest ih =>
      by_cases he : kv.1 = k
      · subst he
        have hne : ¬ kv.1 = k' := fun hk => h hk.symm
        simp only [dset_cons, if_pos rfl, dget_cons, if_neg hne]
        have hne' : ¬ (kv.1 : ℕ) = k' := hne
        simp [hne']
      · simp only [dset_cons, if_neg he, dget_cons, ih]

theorem dsum_dset (d : Donor) (k : ℕ) (v : ℚ) (hk : k ∈ dkeys d) (hnd : (dkeys d).Nodup) :
    dsum (dset d k v) = dsum d - dget d k + v := by
  induction d with
  | nil => simp [dkeys] at hk
  | cons kv rest ih =>
      simp only [dkeys_cons, List.nodup_cons] at hnd
      by_cases he : kv.1 = k
      · subst he
        rw [dset_cons, if_pos rfl, dsum_cons, dsum_cons, dget_cons, if_pos rfl]
        ring
      · simp only [dkeys_cons, List.mem_cons] at hk
        rcases hk with hk | hk
        · exact absurd hk.symm he
        · simp only [dset_cons, if_neg he, dsum_cons, dget_cons, if_neg he, ih hk hnd.2]
          ring

/-- Python `max` over a list of rationals (0 on the empty list, which the
source never reaches since `max()` of an empty sequence raises). -/
def listMax : List ℚ → ℚ
  | [] => 0
  | x :: rest => rest.foldl max x

theorem foldl_max_le_iff (rest : List ℚ) (x y : ℚ) :
    rest.foldl max x ≤ y ↔ x ≤ y ∧ ∀ z ∈ rest, z ≤ y := by
  induction rest generalizing x with
  | nil => simp
  | cons z rest ih =>
      simp only [List.foldl_cons, ih, max_le_iff, List.forall_mem_cons]
      tauto

theorem le_listMax (l : List ℚ) (x : ℚ) (h : x ∈ l) : x ≤ listMax l := by
  match l with
  | [] => simp at h
  | y :: rest =>
      have hle := (foldl_max_le_iff rest y (listMax (y :: rest))).mp le_rfl
      rcases List.mem_cons.mp h with rfl | hm
      · exact hle.1
      · exact hle.2 x hm

theorem foldl_max_mem (rest : List ℚ) (x : ℚ) : rest.foldl max x ∈ x :: rest := by
  induction rest generalizing x with
  | nil => simp
  | cons z rest ih =>
      simp only [List.foldl_cons]
      rcases max_choice x z with hm | hm <;> rw [hm]
      · rcases List.mem_cons.mp (ih x) with hx | hx
        · rw [hx]; exact List.mem_cons_self _ _
        · exact List.mem_cons_of_mem _ (List.mem_cons_of_mem _ hx)
      · exact List.mem_cons_of_mem _ (ih z)

theorem listMax_mem (l : List ℚ) (h : l ≠ []) : listMax l ∈ l := by
  match l with
  | [] => exact absurd rfl h
  | x :: rest => exact foldl_max_mem rest x

/-- Python `min(items, key=f)`: a left scan that keeps the current minimum, so
the first minimiser in iteration order wins ties. -/
def argminKey {β : Type} [LinearOrder β] (f : Project → β) (x : Project) (rest : List Project) : Project :=
  rest.foldl (fun best q => if f q < f best then q else best) x

theorem foldl_argmin_mem {β : Type} [LinearOrder β] (f : Project → β) (rest : List Project) (x : Project) :
    rest.foldl (fun best q => if f q < f best then q else best) x ∈ x :: rest := by
  induction rest generalizing x with
  | nil => simp
  | cons z rest ih =>
      simp only [List.foldl_cons]
      by_cases h : f z < f x
      · rw [if_pos h]
        exact List.mem_cons_of_mem _ (ih z)
      · rw [if_neg h]
        rcases List.mem_cons.mp (ih x) with hx | hx
        · rw [hx]; exact List.mem_cons_self _ _
        · exact List.mem_cons_of_mem _ (List.mem_cons_of_mem _ hx)

theorem foldl_argmin_le {β : Type} [LinearOrder β] (f : Project → β) (rest : List Project) (x : Project) :
    ∀ q ∈ x :: rest, f (rest.foldl (fun best q => if f q < f best then q else best) x) ≤ f q := by
  induction rest generalizing x with
  | nil =>
      intro q hq
      rcases List.mem_cons.mp hq with rfl | hq
      · exact le_rfl
      · simp at hq
  | cons z rest ih =>
      intro q hq
      simp only [List.foldl_cons]
      by_cases h : f z < f x
      · rw [if_pos h]
        rcases List.mem_cons.mp hq with rfl | hq
        · exact le_trans (ih z z (List.mem_cons_self z rest)) h.le
        · exact ih z q hq
      · rw [if_neg h]
        rcases List.mem_cons.mp hq with heq | hq
        · rw [heq]
          exact ih x x (List.mem_cons_self x rest)
        · rcases List.mem_cons.mp hq with heq | hq
          · rw [heq]
            exact le_trans (ih x x (List.mem_cons_self x rest)) (not_lt.mp h)
          · exact ih x q (List.mem_cons_of_mem x hq)

theorem argminKey_mem {β : Type} [LinearOrder β] (f : Project → β) (x : Project) (rest : List Project) :
    argminKey f x rest ∈ x :: rest :=
  foldl_argmin_mem f rest x

theorem argminKey_le {β : Type} [LinearOrder β] (f : Project → β) (x : Project) (rest : List Project) :
    ∀ q ∈ x :: rest, f (argminKey f x rest) ≤ f q :=
  foldl_argmin_le f rest x

/-!
Eligibility and selection strategies (`is_eligible_ge`, `is_eligible_gsc`,
`select_project_ge`, `select_project_gsc`).  The source reads a project's
total donation as `sum(donor.get(project, 0) for donor in donors)`; some call
sites use the project and some its name as the dict key, which agree because
projects hash and compare by name.
-/

/-- Total current donation for the project named `k`. -/
def support (donors : List Donor) (k : ℕ) : ℚ :=
  (donors.map (fun d => dget d k)).sum

/-- Projects whose excess support `sum(donations) - cost` is nonnegative. -/
def is_eligible_ge (projects : List Project) (donors : List Donor) : List Project :=
  projects.filter (fun p => decide (0 ≤ support donors p.name - p.cost))

/-- Projects whose support-to-cost ratio `frac(sum(donations), cost)` is at least 1. -/
def is_eligible_gsc (projects : List Project) (donors : List Donor) : List Project :=
  projects.filter (fun p => decide (1 ≤ support donors p.name / p.cost))

/-- Projects attaining the maximum excess support, in input order. -/
def select_project_ge (projects : List Project) (donors : List Donor) : List Project :=
  let m := listMax (projects.map (fun p => support donors p.name - p.cost))
  projects.filter (fun p => decide (support donors p.name - p.cost = m))

/-- Projects attaining the maximum support-to-cost ratio, in input order. -/
def select_project_gsc (projects : List Project) (donors : List Donor) : List Project :=
  let m := listMax (projects.map (fun p => support donors p.name / p.cost))
  projects.filter (fun p => decide (support donors p.name / p.cost = m))

/-!
The excess redistribution procedure (`excess_redistribution_procedure`).
Per donor the source copies the dict, stores `to_distribute` into the funded
project's entry, zeroes that entry in the copy, and then loops over the copy,
updating every key (the guard `donation != selected_project` compares a number
with a Project object and is therefore always true) and re-zeroing the funded
project's entry at the end of every iteration.
-/

/-- The body of the `for key, donation in donor_copy.items()` loop: `items` is
the frozen copy being iterated, `acc` the live dict being written. -/
def erpFold (sel : ℕ) (toDist total : ℚ) : List (ℕ × ℚ) → Donor → Donor
  | [], acc => acc
  | kv :: rest, acc =>
      let acc1 := if total ≠ 0 then dset acc kv.1 (kv.2 + toDist * (kv.2 / total)) else acc
      erpFold sel toDist total rest (dset acc1 sel 0)

/-- One donor's update in `excess_redistribution_procedure(donors, selected_project, gama)`. -/
def excess_redistribution_procedure_donor (sel : ℕ) (gama : ℚ) (donor : Donor) : Donor :=
  let toDistribute := dget donor sel * (1 - gama)
  let donorCopy := dset donor sel 0
  let total := dsum donorCopy
  erpFold sel toDistribute total donorCopy (dset donor sel toDistribute)

/-- The whole procedure, mapped over the ledger. -/
def excess_redistribution_procedure (donors : List Donor) (sel : ℕ) (gama : ℚ) :
    List Donor :=
  donors.map (excess_redistribution_procedure_donor sel gama)

/-!
The elimination transfer (`distribute_project_support`, local to
`elimination_with_transfers`): per donor, if the donor's remaining total is 0
the donor is skipped (`continue`); otherwise every other entry receives its
proportional share and the eliminated project's entry is zeroed after the loop.
-/

/-- The body of the `for key, donation in donor.items()` loop of
`distribute_project_support`; each key's value is read at its own iteration,
before it is written, so iterating the frozen `items` list is equivalent. -/
def dptFold (elimName : ℕ) (toDist total : ℚ) : List (ℕ × ℚ) → Donor → Donor
  | [], acc => acc
  | kv :: rest, acc =>
      dptFold elimName toDist total rest
        (if kv.1 ≠ elimName then dset acc kv.1 (kv.2 + toDist * (kv.2 / total)) else acc)

/-- One donor's update in `distribute_project_support(all_donors, eliminated_project)`. -/
def distribute_project_support_donor (elimName : ℕ) (donor : Donor) : Donor :=
  let toDistribute := dget donor elimName
  let total := dsum donor - toDistribute
  if total = 0 then donor
  else dset (dptFold elimName toDistribute total donor donor) elimName 0

/-- The transfer applied to the whole ledger. -/
def distribute_project_support (donors : List Donor) (elimName : ℕ) : List Donor :=
  donors.map (distribute_project_support_donor elimName)

/-- Result of `elimination_with_transfers`: the returned flag together with the
mutated current-project list, ledger, and eliminated list. -/
def elimination_with_transfers (projects : List Project) (donors : List Donor)
    (eliminated : List Project) : Bool × List Project × List Donor × List Project :=
  if projects.length < 2 then
    match projects with
    | [p] => (false, [], donors, eliminated ++ [p])
    | _ => (false, projects, donors, eliminated)
  else
    match projects with
    | [] => (false, projects, donors, eliminated)
    | p :: rest =>
        let minP := argminKey (fun q => support donors q.name - q.cost) p rest
        (true, (p :: rest).erase minP,
          distribute_project_support donors minP.name, eliminated ++ [minP])

/-!
Minimal transfer (`minimal_transfer`).  All arithmetic is exact-rational
(`frac` builds exact fractions in the default numeric mode), but the source
still compares against the float literals `1e-14` and (in the controller)
`0.01`; a Fraction-to-float comparison in Python is exact, so these literals
stand for the exact rational values of the corresponding doubles.
-/

/-- Exact rational value of the Python float literal `0.01`. -/
def float_0_01 : ℚ := 5764607523034235 / 2 ^ 59

/-- Exact rational value of the Python float literal `1e-14`. -/
def float_1e_14 : ℚ := 6338253001141147 / 2 ^ 99

/-- Python `frac(math.ceil(change * 100000000000000), 100000000000000)`. -/
def ratCeil14 (x : ℚ) : ℚ := (⌈x * 100000000000000⌉ : ℤ) / 100000000000000

/-- Unused fallback for list indexing that the source performs on lists known
to be nonempty (`[0]` on a selection result, `min`/`max` on nonempty input). -/
def defaultProject : Project := ⟨0, 0⟩

/-- Python `all(sum(donors[i].values()) == donors[i].get(chosen_project, 0)
for i in donors_of_selected_project)`. -/
def allOnChosen (donors : List Donor) (donorsOfSel : List ℕ) (chosenName : ℕ) : Bool :=
  donorsOfSel.all (fun i => decide (dsum (donors.getD i []) = dget (donors.getD i []) chosenName))

/-- The body of the `for proj_name, proj_donation in donor.items()` loop of
`minimal_transfer`: `items` is the donor's entry list (each key's value is
read at its own iteration, before it is written), `acc` the live dict, into
whose chosen-project entry the ceiling-rounded transfers accumulate. -/
def mtFold (chosenName : ℕ) (toDist total : ℚ) : List (ℕ × ℚ) → Donor → Donor
  | [], acc => acc
  | kv :: rest, acc =>
      if kv.1 ≠ chosenName ∧ 0 < kv.2 then
        let change0 := toDist * kv.2 / total
        let change := if 1 - change0 < float_1e_14 then 1 else change0
        let acc1 := dset acc kv.1 (dget acc kv.1 - change)
        let acc2 := dset acc1 chosenName (dget acc1 chosenName + ratCeil14 change)
        mtFold chosenName toDist total rest acc2
      else mtFold chosenName toDist total rest acc

/-- One donor's update inside the convergence loop (`donor = donors[i]` body):
skipped entirely unless the donor's total on other projects is positive. -/
def mtDonorPass (chosenName : ℕ) (r : ℚ) (d : Donor) : Donor :=
  let donation := dget d chosenName
  let total := dsum d - donation
  if 0 < total then
    let toDistribute := min total (donation / r - donation)
    mtFold chosenName toDistribute total d d
  else d

/-- The `for i in donors_of_selected_project` loop of one iteration. -/
def mtApplyPass (chosenName : ℕ) (r : ℚ) (idxs : List ℕ) (donors : List Donor) :
    List Donor :=
  idxs.foldl (fun ds i => ds.set i (mtDonorPass chosenName r (ds.getD i []))) donors

/-- Errors surfaced by the embedded functions.  `outOfFuel` is a modelling
artifact standing for the source's structurally unbounded loops; the
controller is only ever studied on runs given enough fuel. -/
inductive CstvError
  | valueErrorUnequalDonations
  | runtimeErrorLoopBound
  | typeErrorArity
  | outOfFuel
deriving DecidableEq, Repr

/-- The `while r < 1` convergence loop of `minimal_transfer`: `num` is the
source's `num_loop_run` counter, checked against the fixed bound 10000 after
the supports are recomputed; `fuel` is structural recursion fuel (the call
site passes 10001, which the bound check makes sufficient). -/
def mtLoop (projects : List Project) (chosen : Project) (donorsOfSel : List ℕ)
    (eliminated : List Project) (fuel num : ℕ) (donors : List Donor) (r : ℚ) :
    Except CstvError (Bool × List Donor × List Project) :=
  if 1 ≤ r then .ok (true, donors, eliminated)
  else if allOnChosen donors donorsOfSel chosen.name then
    .ok (false, donors, eliminated ++ projects)
  else
    let donors' := mtApplyPass chosen.name r donorsOfSel donors
    let r' := support donors' chosen.name / chosen.cost
    if num + 1 > 10000 then .error .runtimeErrorLoopBound
    else
      match fuel with
      | 0 => .error .outOfFuel
      | fuel' + 1 => mtLoop projects chosen donorsOfSel eliminated fuel' (num + 1) donors' r'

/-- Python `sum_of_don` for one project: the summed total holdings of the
donors currently giving a positive amount to it. -/
def sumOfDon (donors : List Donor) (projName : ℕ) : ℚ :=
  ((donors.filter (fun d => decide (0 < dget d projName))).map dsum).sum

/-- Result of `minimal_transfer`: the returned flag together with the mutated
ledger and eliminated list (the current-project list is never mutated here).
The advisory `warnings.warn` for exact-fraction mode is non-fatal and not
modelled.  The `[0]` indexing of the selection result is modelled with a
default that is never used, since the selection procedures return a nonempty
tied list on the nonempty `projects_with_chance`. -/
def minimal_transfer (selProc : List Project → List Donor → List Project)
    (projects : List Project) (donors : List Donor) (eliminated : List Project) :
    Except CstvError (Bool × List Donor × List Project) :=
  let projectsWithChance :=
    projects.filter (fun proj => decide (proj.cost ≤ sumOfDon donors proj.name))
  if projectsWithChance.isEmpty then .ok (false, donors, eliminated)
  else
    let chosen := (selProc projectsWithChance donors).headD defaultProject
    let donorsOfSel :=
      (List.range donors.length).filter (fun i => decide (0 < dget (donors.getD i []) chosen.name))
    let r := support donors chosen.name / chosen.cost
    mtLoop projects chosen donorsOfSel eliminated 10001 0 donors r

/-!
Exhaustiveness post-processors.
-/

/-- Python `reverse_eliminations`: appends every affordable eliminated project
to the selected list, deducting its cost; the eliminated collection itself is
not modified. -/
def reverse_eliminations (selected : List Project) (eliminated : List Project)
    (budget : ℚ) : List Project :=
  (eliminated.foldl
    (fun acc p => if p.cost ≤ acc.2 then (acc.1 ++ [p], acc.2 - p.cost) else acc)
    (selected, budget)).1

/-- A Python callable used as a selection procedure: its declared number of
positional parameters together with its behaviour on the two arguments the
main loop passes.  A call with a different number of arguments raises
`TypeError` before the body runs. -/
structure SelectionProc where
  paramCount : ℕ
  run : List Project → List Donor → List Project

/-- The source's `def select_project_ge(projects, donors)` declares exactly two
parameters. -/
def select_project_ge_proc : SelectionProc := ⟨2, select_project_ge⟩

/-- The source's `def select_project_gsc(projects, donors)` declares exactly
two parameters. -/
def select_project_gsc_proc : SelectionProc := ⟨2, select_project_gsc⟩

/-- Python `acceptance_of_under_supported_projects`.  Its loop calls
`project_to_fund_selection_procedure(eliminated_projects, donors, tie_breaking, True)`
with four positional arguments; when the procedure declares a different number
of parameters the call raises `TypeError`.  (For a callable that did declare
four parameters, `run` applied to the first two arguments approximates the
call; no preset procedure is of that kind.)  Returns the updated selected and
eliminated lists. -/
def acceptance_of_under_supported_projects (proc : SelectionProc) :
    ℕ → List Project → List Donor → List Project → ℚ →
    Except CstvError (List Project × List Project)
  | _, selected, _, [], _ => .ok (selected, [])
  | fuel, selected, donors, e :: elimRest, budget =>
      if proc.paramCount ≠ 4 then .error .typeErrorArity
      else
        let selectedProject := (proc.run (e :: elimRest) donors).headD defaultProject
        match fuel with
        | 0 => .error .outOfFuel
        | fuel' + 1 =>
            if selectedProject.cost ≤ budget then
              acceptance_of_under_supported_projects proc fuel' (selected ++ [selectedProject])
                donors ((e :: elimRest).erase selectedProject) (budget - selectedProject.cost)
            else
              acceptance_of_under_supported_projects proc fuel' selected
                donors ((e :: elimRest).erase selectedProject) budget

/-!
Strategy configuration and the `cstv` controller.
-/

inductive SelectRule | ge | gsc
deriving DecidableEq, Repr

inductive EligibleRule | ge | gsc
deriving DecidableEq, Repr

inductive ResolverRule | elimWithTransfers | minTransfer
deriving DecidableEq, Repr

inductive PostRule | reverseElims | acceptUnderSupported
deriving DecidableEq, Repr

/-- The quadruple of strategies the controller runs with. -/
structure StrategyConfig where
  select : SelectRule
  eligible : EligibleRule
  resolver : ResolverRule
  post : PostRule
deriving DecidableEq, Repr

def selectBy : SelectRule → List Project → List Donor → List Project
  | .ge => select_project_ge
  | .gsc => select_project_gsc

def selectProcBy : SelectRule → SelectionProc
  | .ge => select_project_ge_proc
  | .gsc => select_project_gsc_proc

def eligibleBy : EligibleRule → List Project → List Donor → List Project
  | .ge => is_eligible_ge
  | .gsc => is_eligible_gsc

/-- The value passed as the `combination` argument.  Python does not enforce
the type annotation, so any object may arrive; `otherValue` stands for every
value that is none of the four enumeration members. -/
inductive CombinationArg
  | EWT | EWTC | MT | MTC
  | otherValue
deriving DecidableEq, Repr

/-- The preset dispatch at the top of `cstv`.  The first two branches test
`combination == CSTV_Combination.EWT` and `== CSTV_Combination.EWTC`, but the
third branch is `elif CSTV_Combination.MT:`, which tests the enum member
itself; an enum member is always truthy, so MT, MTC and every other value all
take the MT branch, and the final `else: raise ValueError(...)` is
unreachable. -/
def configure : CombinationArg → StrategyConfig
  | .EWT => ⟨.ge, .ge, .elimWithTransfers, .reverseElims⟩
  | .EWTC => ⟨.gsc, .gsc, .elimWithTransfers, .reverseElims⟩
  | _ => ⟨.ge, .ge, .minTransfer, .acceptUnderSupported⟩

/-- Strategy quadruple documented in the docstring of the `MTC` member of
`CSTV_Combination`: selection and eligibility via greedy-by-support-over-cost,
minimal transfer, and acceptance of under-supported projects. -/
def documented_MTC : StrategyConfig := ⟨.gsc, .gsc, .minTransfer, .acceptUnderSupported⟩

/-- Strategy quadruple documented for `MT`: greedy-by-excess selection and
eligibility, minimal transfer, acceptance of under-supported projects. -/
def documented_MT : StrategyConfig := ⟨.ge, .ge, .minTransfer, .acceptUnderSupported⟩

/-- Strategy quadruple documented for `EWT`. -/
def documented_EWT : StrategyConfig := ⟨.ge, .ge, .elimWithTransfers, .reverseElims⟩

/-- Strategy quadruple documented for `EWTC`. -/
def documented_EWTC : StrategyConfig := ⟨.gsc, .gsc, .elimWithTransfers, .reverseElims⟩

/-- Modelled from the spec: the Tie-Breaking Oracle (`pabutools.tiebreaking`,
which is not under `src/`).  The default `lexico_tie_breaking` orders the tied
projects by name and `untie` returns the first of them, i.e. the name-minimal
tied project. -/
def lexico_tie_breaking_untie (tied : List Project) : Project :=
  tied.foldl (fun best p => if p.name < best.name then p else best) (tied.headD defaultProject)

/-- A cumulative ballot together with the multiplicity the profile reports for
it (`profile.multiplicity(ballot)`, 1 for plain profiles). -/
structure Ballot where
  entries : List (ℕ × ℚ)
  multiplicity : ℚ
deriving DecidableEq, Repr

/-- The election instance: the project collection (in its iteration order) and
the `budget_limit` attribute, which `cstv` never reads. -/
structure PBInstance where
  projects : List Project
  budget_limit : ℚ
deriving DecidableEq, Repr

/-- The controller's mutable state: current, selected and eliminated
projects, and the donation ledger. -/
structure RunState where
  current : List Project
  selected : List Project
  eliminated : List Project
  donors : List Donor
deriving DecidableEq, Repr

/-- Total of the whole ledger, Python
`sum(sum(donor.values()) for donor in donations)`. -/
def ledgerTotal (donors : List Donor) : ℚ := (donors.map dsum).sum

/-- Dispatch of `no_eligible_project_func`; `minimal_transfer` never mutates
the current-project collection. -/
def resolverBy (cfg : StrategyConfig) (current : List Project) (donors : List Donor)
    (eliminated : List Project) :
    Except CstvError (Bool × List Project × List Donor × List Project) :=
  match cfg.resolver with
  | .elimWithTransfers => .ok (elimination_with_transfers current donors eliminated)
  | .minTransfer =>
      match minimal_transfer (selectBy cfg.select) current donors eliminated with
      | .ok (flag, donors', elim') => .ok (flag, current, donors', elim')
      | .error e => .error e

/-- The `while not eligible_projects` loop of the controller: resolve until
the eligibility strategy returns a nonempty list (flag `true`) or the
resolver signals failure (flag `false`, which sends the controller to the
post-processor). -/
def no_eligible_loop (cfg : StrategyConfig) :
    ℕ → List Project → List Donor → List Project →
    Except CstvError (Bool × List Project × List Donor × List Project)
  | 0, _, _, _ => .error .outOfFuel
  | fuel + 1, current, donors, eliminated =>
      if (eligibleBy cfg.eligible current donors).isEmpty then
        match resolverBy cfg current donors eliminated with
        | .error e => .error e
        | .ok (true, current', donors', eliminated') =>
            no_eligible_loop cfg fuel current' donors' eliminated'
        | .ok (false, current', donors', eliminated') =>
            .ok (false, current', donors', eliminated')
      else .ok (true, current, donors, eliminated)

/-- Dispatch of `exhaustiveness_postprocess_func` on the halting state;
`budget` is the ledger total the controller computed at the top of the
halting round. -/
def postprocessBy (cfg : StrategyConfig) (s : RunState) (budget : ℚ) :
    Except CstvError RunState :=
  match cfg.post with
  | .reverseElims =>
      .ok { s with selected := reverse_eliminations s.selected s.eliminated budget }
  | .acceptUnderSupported =>
      match acceptance_of_under_supported_projects (selectProcBy cfg.select)
          s.eliminated.length s.selected s.donors s.eliminated budget with
      | .ok (sel', elim') => .ok { s with selected := sel', eliminated := elim' }
      | .error e => .error e

/-- One pass of the `while True` main loop per recursive call.  The budget is
recomputed from the ledger at the top of every round (the in-round
`budget -= p.cost` is dead, being recomputed before any use).  When the
selected project's excess support is negative the `if` body is skipped and
the loop simply runs again on the unchanged state. -/
def cstvLoop (cfg : StrategyConfig) :
    ℕ → ℕ → RunState → Except CstvError RunState
  | 0, _, _ => .error .outOfFuel
  | fuel + 1, innerFuel, s =>
      if s.current.isEmpty then postprocessBy cfg s (ledgerTotal s.donors)
      else
        match no_eligible_loop cfg innerFuel s.current s.donors s.eliminated with
        | .error e => .error e
        | .ok (false, current', donors', eliminated') =>
            postprocessBy cfg ⟨current', s.selected, eliminated', donors'⟩ (ledgerTotal s.donors)
        | .ok (true, current', donors', eliminated') =>
            let eligible := eligibleBy cfg.eligible current' donors'
            let tied := selectBy cfg.select eligible donors'
            let p :=
              if tied.length > 1 then lexico_tie_breaking_untie tied
              else tied.headD defaultProject
            let excess := support donors' p.name - p.cost
            if 0 ≤ excess then
              let donors'' :=
                if float_0_01 < excess then
                  excess_redistribution_procedure donors' p.name (p.cost / (excess + p.cost))
                else donors'.map (fun d => dset d p.name 0)
              cstvLoop cfg fuel innerFuel
                ⟨current'.erase p, s.selected ++ [p], eliminated', donors''⟩
            else cstvLoop cfg fuel innerFuel ⟨current', s.selected, eliminated', donors'⟩

/-- The working ledger built from the profile: one dict per ballot, keyed by
the instance's projects, scaled by the ballot's multiplicity. -/
def donationsOf (inst : PBInstance) (profile : List Ballot) : List Donor :=
  profile.map (fun b => inst.projects.map (fun p => (p.name, dget b.entries p.name * b.multiplicity)))

/-- The `cstv` entry point on a preset strategy configuration: validates that
all ballots report the same total donation (`len(set(...)) == 1`), builds the
ledger, and runs the main loop from the initial state (empty initial budget
allocation, empty eliminated set, all projects current).  Note the
`budget_limit` of the instance is never consulted. -/
def cstv (cfg : StrategyConfig) (inst : PBInstance) (profile : List Ballot)
    (fuel innerFuel : ℕ) : Except CstvError RunState :=
  if ((profile.map (fun b => dsum b.entries)).dedup).length ≠ 1 then
    .error .valueErrorUnequalDonations
  else
    cstvLoop cfg fuel innerFuel ⟨inst.projects, [], [], donationsOf inst profile⟩

/-!
Bridging lemmas between dict entries, lookups and sums.
-/

theorem dget_entry (d : Donor) (kv : ℕ × ℚ) (hnd : (dkeys d).Nodup) (h : kv ∈ d) :
    dget d kv.1 = kv.2 := by
  induction d with
  | nil => simp at h
  | cons hd rest ih =>
      simp only [dkeys_cons, List.nodup_cons] at hnd
      rcases List.mem_cons.mp h with rfl | h
      · simp
      · have hne : hd.1 ≠ kv.1 := by
          intro he
          exact hnd.1 (he ▸ (List.mem_map.mpr ⟨kv, h, rfl⟩))
        simp only [dget_cons, if_neg hne]
        exact ih hnd.2 h

theorem mem_dkeys_iff (d : Donor) (k : ℕ) : k ∈ dkeys d ↔ ∃ v, (k, v) ∈ d := by
  constructor
  · intro h
    rcases List.mem_map.mp h with ⟨kv, hkv, hk⟩
    exact ⟨kv.2, by rwa [show (k, kv.2) = kv from Prod.ext hk.symm rfl]⟩
  · rintro ⟨v, hv⟩
    exact List.mem_map.mpr ⟨(k, v), hv, rfl⟩

theorem dsum_eq_sum_dget (d : Donor) (hnd : (dkeys d).Nodup) :
    dsum d = ((dkeys d).map (dget d)).sum := by
  induction d with
  | nil => rfl
  | cons kv rest ih =>
      simp only [dkeys_cons, List.nodup_cons] at hnd
      have hmap : (dkeys rest).map (dget (kv :: rest)) = (dkeys rest).map (dget rest) := by
        apply List.map_congr_left
        intro k hk
        have hne : kv.1 ≠ k := fun he => hnd.1 (he ▸ hk)
        simp [dget_cons, if_neg hne]
      simp only [dsum_cons, dkeys_cons, List.map_cons, List.sum_cons, hmap, ih hnd.2]
      simp [dget_cons]

theorem dsum_dset_zero (d : Donor) (k : ℕ) (hnd : (dkeys d).Nodup) :
    dsum (dset d k 0) = dsum d - dget d k := by
  by_cases h : k ∈ dkeys d
  · rw [dsum_dset d k 0 h hnd]
    ring
  · rw [dget_dset_of_not_mem d k 0 h, dget_eq_zero_of_not_mem d k h]
    ring

theorem sum_map_congr_dget {α : Type} (keys : List α) (f g : α → ℚ)
    (h : ∀ k ∈ keys, f k = g k) :
    (keys.map f).sum = (keys.map g).sum := by
  rw [List.map_congr_left h]

/-!
Characterization of the `excess_redistribution_procedure` fold.
-/

theorem erpFold_dkeys (sel : ℕ) (t tot : ℚ) (items : List (ℕ × ℚ)) (acc : Donor) :
    dkeys (erpFold sel t tot items acc) = dkeys acc := by
  induction items generalizing acc with
  | nil => rfl
  | cons kv rest ih =>
      show dkeys (erpFold sel t tot rest _) = _
      rw [ih]
      by_cases h : tot ≠ 0
      · simp only [if_pos h, dkeys_dset]
      · simp only [if_neg h, dkeys_dset]

theorem erpFold_get_ne (sel : ℕ) (t tot : ℚ) (items : List (ℕ × ℚ)) (acc : Donor)
    (k : ℕ) (hk : k ≠ sel) (hnd : (items.map Prod.fst).Nodup)
    (hsub : ∀ j ∈ items.map Prod.fst, j ∈ dkeys acc) :
    dget (erpFold sel t tot items acc) k =
      if k ∈ items.map Prod.fst ∧ tot ≠ 0 then
        dget items k + t * (dget items k / tot)
      else dget acc k := by
  induction items generalizing acc with
  | nil => simp [erpFold]
  | cons kv rest ih =>
      simp only [List.map_cons, List.nodup_cons] at hnd
      have hsub' : ∀ j ∈ rest.map Prod.fst, j ∈ dkeys acc := by
        intro j hj
        exact hsub j (List.mem_cons_of_mem _ hj)
      have hkv : kv.1 ∈ dkeys acc := hsub kv.1 (List.mem_cons_self _ _)
      show dget (erpFold sel t tot rest (dset (if tot ≠ 0 then _ else _) sel 0)) k = _
      by_cases hkvk : kv.1 = k
      · subst hkvk
        have hknr : kv.1 ∉ rest.map Prod.fst := hnd.1
        have hrw := ih (dset (if tot ≠ 0 then dset acc kv.1 (kv.2 + t * (kv.2 / tot)) else acc) sel 0)
          hnd.2
          (by
            intro j hj
            rw [dkeys_dset]
            by_cases htot : tot ≠ 0
            · rw [if_pos htot, dkeys_dset]; exact hsub' j hj
            · rw [if_neg htot]; exact hsub' j hj)
        rw [hrw]
        have hnot : ¬ (kv.1 ∈ rest.map Prod.fst ∧ tot ≠ 0) := fun hc => hknr hc.1
        rw [if_neg hnot]
        rw [dget_dset_ne _ sel kv.1 0 hk]
        by_cases htot : tot ≠ 0
        · simp only [if_pos htot, List.mem_cons, true_or, true_and, dget_cons, if_pos rfl]
          rw [dget_dset_self acc kv.1 _ hkv]
          simp [htot]
        · simp only [if_neg htot, List.mem_cons]
          push_neg at htot
          simp [htot]
      · have hrw := ih (dset (if tot ≠ 0 then dset acc kv.1 (kv.2 + t * (kv.2 / tot)) else acc) sel 0)
          hnd.2
          (by
            intro j hj
            rw [dkeys_dset]
            by_cases htot : tot ≠ 0
            · rw [if_pos htot, dkeys_dset]; exact hsub' j hj
            · rw [if_neg htot]; exact hsub' j hj)
        rw [hrw]
        have hacc : dget (dset (if tot ≠ 0 then dset acc kv.1 (kv.2 + t * (kv.2 / tot)) else acc) sel 0) k
            = dget acc k := by
          rw [dget_dset_ne _ sel k 0 hk]
          by_cases htot : tot ≠ 0
          · rw [if_pos htot, dget_dset_ne _ kv.1 k _ (fun he => hkvk he.symm)]
          · rw [if_neg htot]
        rw [hacc]
        have hmem : k ∈ (kv :: rest).map Prod.fst ↔ k ∈ rest.map Prod.fst := by
          simp only [List.map_cons, List.mem_cons]
          constructor
          · rintro (h | h)
            · exact absurd h.symm hkvk
            · exact h
          · exact Or.inr
        have hval : dget (kv :: rest) k = dget rest k := by
          simp [dget_cons, if_neg hkvk]
        rw [hval]
        by_cases hm : k ∈ rest.map Prod.fst ∧ tot ≠ 0
        · rw [if_pos hm, if_pos ⟨hmem.mpr hm.1, hm.2⟩]
        · rw [if_neg hm, if_neg (fun hc => hm ⟨hmem.mp hc.1, hc.2⟩)]

theorem erpFold_get_sel (sel : ℕ) (t tot : ℚ) (items : List (ℕ × ℚ)) (acc : Donor)
    (hne : items ≠ []) (hsel : sel ∈ dkeys acc) :
    dget (erpFold sel t tot items acc) sel = 0 := by
  induction items generalizing acc with
  | nil => exact absurd rfl hne
  | cons kv rest ih =>
      show dget (erpFold sel t tot rest (dset (if tot ≠ 0 then _ else _) sel 0)) sel = 0
      have hselkeys : sel ∈ dkeys (if tot ≠ 0 then dset acc kv.1 (kv.2 + t * (kv.2 / tot)) else acc) := by
        by_cases htot : tot ≠ 0
        · rw [if_pos htot, dkeys_dset]; exact hsel
        · rw [if_neg htot]; exact hsel
      match rest with
      | [] =>
          show dget (dset _ sel 0) sel = 0
          rw [dget_dset_self _ sel 0 hselkeys]
      | kv2 :: rest2 =>
          exact ih _ (by simp) (by rw [dkeys_dset]; exact hselkeys)

theorem erp_donor_dkeys (sel : ℕ) (gama : ℚ) (donor : Donor) :
    dkeys (excess_redistribution_procedure_donor sel gama donor) = dkeys donor := by
  unfold excess_redistribution_procedure_donor
  rw [erpFold_dkeys, dkeys_dset]

theorem erp_donor_get_sel (sel : ℕ) (gama : ℚ) (donor : Donor) (hsel : sel ∈ dkeys donor) :
    dget (excess_redistribution_procedure_donor sel gama donor) sel = 0 := by
  have hne : dset donor sel 0 ≠ [] := by
    intro h
    have hk := dkeys_dset donor sel 0
    rw [h] at hk
    rw [← hk] at hsel
    simp at hsel
  unfold excess_redistribution_procedure_donor
  apply erpFold_get_sel _ _ _ _ _ hne
  rw [dkeys_dset]
  exact hsel

theorem erp_donor_get_ne (sel k : ℕ) (gama : ℚ) (donor : Donor)
    (hnd : (dkeys donor).Nodup) (hk : k ≠ sel) :
    dget (excess_redistribution_procedure_donor sel gama donor) k =
      if k ∈ dkeys donor ∧ dsum (dset donor sel 0) ≠ 0 then
        dget donor k +
          (dget donor sel * (1 - gama)) * (dget donor k / dsum (dset donor sel 0))
      else dget donor k := by
  have h1 : (dset donor sel 0).map Prod.fst = dkeys donor := dkeys_dset donor sel 0
  have h2 : dkeys (dset donor sel (dget donor sel * (1 - gama))) = dkeys donor :=
    dkeys_dset donor sel _
  unfold excess_redistribution_procedure_donor
  rw [erpFold_get_ne _ _ _ _ _ k hk (by rw [h1]; exact hnd)
    (by intro j hj; rw [h2]; rw [h1] at hj; exact hj)]
  rw [dget_dset_ne donor sel k 0 hk, dget_dset_ne donor sel k _ hk, h1]

theorem erp_donor_dsum (sel : ℕ) (gama : ℚ) (donor : Donor)
    (hnd : (dkeys donor).Nodup) (hsel : sel ∈ dkeys donor) :
    dsum (excess_redistribution_procedure_donor sel gama donor) =
      if dsum (dset donor sel 0) ≠ 0 then dsum donor - gama * dget donor sel
      else dsum donor - dget donor sel := by
  set d' := excess_redistribution_procedure_donor sel gama donor with hd'
  have hkeys : dkeys d' = dkeys donor := erp_donor_dkeys sel gama donor
  have hnd' : (dkeys d').Nodup := by rw [hkeys]; exact hnd
  have hperm : List.Perm (dkeys donor) (sel :: (dkeys donor).erase sel) := List.perm_cons_erase hsel
  have hsplit : ∀ f : ℕ → ℚ, ((dkeys donor).map f).sum = f sel + (((dkeys donor).erase sel).map f).sum := by
    intro f
    rw [(hperm.map f).sum_eq, List.map_cons, List.sum_cons]
  have hrest : (((dkeys donor).erase sel).map (dget donor)).sum = dsum donor - dget donor sel := by
    have := hsplit (dget donor)
    rw [← dsum_eq_sum_dget donor hnd] at this
    linarith
  have htot : dsum (dset donor sel 0) = dsum donor - dget donor sel :=
    dsum_dset_zero donor sel hnd
  rw [dsum_eq_sum_dget d' hnd', hkeys, hsplit (dget d')]
  rw [erp_donor_get_sel sel gama donor hsel]
  by_cases htz : dsum (dset donor sel 0) ≠ 0
  · have hcongr : (((dkeys donor).erase sel).map (dget d')).sum =
        (((dkeys donor).erase sel).map
          (fun j => (1 + (dget donor sel * (1 - gama)) / dsum (dset donor sel 0)) * dget donor j)).sum := by
      apply sum_map_congr_dget
      intro j hj
      rcases (List.Nodup.mem_erase_iff hnd).mp hj with ⟨hjne, hjmem⟩
      rw [hd', erp_donor_get_ne sel j gama donor hnd hjne, if_pos ⟨hjmem, htz⟩]
      field_simp
      ring
    rw [if_pos htz, hcongr, List.sum_map_mul_left, hrest, ← htot]
    field_simp
    rw [htot]
    ring
  · have hcongr : (((dkeys donor).erase sel).map (dget d')).sum =
        (((dkeys donor).erase sel).map (dget donor)).sum := by
      apply sum_map_congr_dget
      intro j hj
      rcases (List.Nodup.mem_erase_iff hnd).mp hj with ⟨hjne, hjmem⟩
      rw [hd', erp_donor_get_ne sel j gama donor hnd hjne,
        if_neg (fun hc => htz hc.2)]
    rw [if_neg htz, hcongr, hrest]
    ring

/-!
Characterization of the `distribute_project_support` fold.
-/

theorem dptFold_dkeys (e : ℕ) (t tot : ℚ) (items : List (ℕ × ℚ)) (acc : Donor) :
    dkeys (dptFold e t tot items acc) = dkeys acc := by
  induction items generalizing acc with
  | nil => rfl
  | cons kv rest ih =>
      show dkeys (dptFold e t tot rest _) = _
      rw [ih]
      by_cases h : kv.1 ≠ e
      · simp only [if_pos h, dkeys_dset]
      · simp only [if_neg h]

theorem dptFold_get (e : ℕ) (t tot : ℚ) (items : List (ℕ × ℚ)) (acc : Donor) (k : ℕ)
    (hnd : (items.map Prod.fst).Nodup)
    (hsub : ∀ j ∈ items.map Prod.fst, j ∈ dkeys acc) :
    dget (dptFold e t tot items acc) k =
      if k ∈ items.map Prod.fst ∧ k ≠ e then dget items k + t * (dget items k / tot)
      else dget acc k := by
  induction items generalizing acc with
  | nil => simp [dptFold]
  | cons kv rest ih =>
      simp only [List.map_cons, List.nodup_cons] at hnd
      have hsub' : ∀ j ∈ rest.map Prod.fst, j ∈ dkeys acc := by
        intro j hj
        exact hsub j (List.mem_cons_of_mem _ hj)
      have hkv : kv.1 ∈ dkeys acc := hsub kv.1 (List.mem_cons_self _ _)
      show dget (dptFold e t tot rest (if kv.1 ≠ e then _ else acc)) k = _
      have hkeysacc' : dkeys (if kv.1 ≠ e then dset acc kv.1 (kv.2 + t * (kv.2 / tot)) else acc) = dkeys acc := by
        by_cases he : kv.1 ≠ e
        · rw [if_pos he, dkeys_dset]
        · rw [if_neg he]
      have hrw := ih (if kv.1 ≠ e then dset acc kv.1 (kv.2 + t * (kv.2 / tot)) else acc)
        hnd.2 (by intro j hj; rw [hkeysacc']; exact hsub' j hj)
      rw [hrw]
      by_cases hkvk : kv.1 = k
      · subst hkvk
        have hknr : kv.1 ∉ rest.map Prod.fst := hnd.1
        rw [if_neg (fun hc => hknr hc.1)]
        by_cases he : kv.1 ≠ e
        · rw [if_pos he, dget_dset_self acc kv.1 _ hkv]
          rw [if_pos ⟨List.mem_cons_self _ _, he⟩]
          simp [dget_cons]
        · rw [if_neg he]
          push_neg at he
          rw [if_neg (fun hc => hc.2 he)]
      · have hacc : dget (if kv.1 ≠ e then dset acc kv.1 (kv.2 + t * (kv.2 / tot)) else acc) k
            = dget acc k := by
          by_cases he : kv.1 ≠ e
          · rw [if_pos he, dget_dset_ne acc kv.1 k _ (fun hx => hkvk hx.symm)]
          · rw [if_neg he]
        rw [hacc]
        have hval : dget (kv :: rest) k = dget rest k := by
          simp [dget_cons, if_neg hkvk]
        have hmem : k ∈ Prod.fst kv :: rest.map Prod.fst ↔ k ∈ rest.map Prod.fst := by
          constructor
          · intro h
            rcases List.mem_cons.mp h with h | h
            · exact absurd h.symm hkvk
            · exact h
          · exact List.mem_cons_of_mem _

        by_cases hm : k ∈ rest.map Prod.fst ∧ k ≠ e
        · rw [if_pos hm, if_pos ⟨by simpa using hmem.mpr hm.1, hm.2⟩, hval]
        · rw [if_neg hm, if_neg (fun hc => hm ⟨hmem.mp (by simpa using hc.1), hc.2⟩)]

theorem dpt_donor_dkeys (e : ℕ) (donor : Donor) :
    dkeys (distribute_project_support_donor e donor) = dkeys donor := by
  unfold distribute_project_support_donor
  by_cases h : dsum donor - dget donor e = 0
  · rw [if_pos h]
  · rw [if_neg h, dkeys_dset, dptFold_dkeys]

theorem dpt_donor_get (e k : ℕ) (donor : Donor) (hnd : (dkeys donor).Nodup) :
    dget (distribute_project_support_donor e donor) k =
      if dsum donor - dget donor e = 0 then dget donor k
      else if k = e then 0
      else if k ∈ dkeys donor then
        dget donor k + dget donor e * (dget donor k / (dsum donor - dget donor e))
      else dget donor k := by
  unfold distribute_project_support_donor
  by_cases h : dsum donor - dget donor e = 0
  · rw [if_pos h, if_pos h]
  · rw [if_neg h, if_neg h]
    have hfk : dkeys (dptFold e (dget donor e) (dsum donor - dget donor e) donor donor) = dkeys donor :=
      dptFold_dkeys _ _ _ _ _
    by_cases hke : k = e
    · subst hke
      by_cases hmem : k ∈ dkeys donor
      · rw [if_pos rfl, dget_dset_self _ k 0 (by rw [hfk]; exact hmem)]
      · rw [if_pos rfl, dget_dset_of_not_mem _ k 0 (by rw [hfk]; exact hmem)]
        rw [dptFold_get k _ _ donor donor k hnd (fun j hj => hj)]
        rw [if_neg (fun hc => hmem hc.1)]
        exact dget_eq_zero_of_not_mem donor k hmem
    · rw [if_neg hke, dget_dset_ne _ e k 0 hke]
      rw [dptFold_get e _ _ donor donor k hnd (fun j hj => hj)]
      by_cases hmem : k ∈ dkeys donor
      · rw [if_pos ⟨hmem, hke⟩, if_pos hmem]
      · rw [if_neg (fun hc => hmem hc.1), if_neg hmem]

theorem dpt_donor_dsum (e : ℕ) (donor : Donor) (hnd : (dkeys donor).Nodup) :
    dsum (distribute_project_support_donor e donor) = dsum donor := by
  set d' := distribute_project_support_donor e donor with hd'
  by_cases h : dsum donor - dget donor e = 0
  · rw [hd']
    unfold distribute_project_support_donor
    rw [if_pos h]
  · have hkeys : dkeys d' = dkeys donor := dpt_donor_dkeys e donor
    have hnd' : (dkeys d').Nodup := by rw [hkeys]; exact hnd
    by_cases hmem : e ∈ dkeys donor
    · have hperm : List.Perm (dkeys donor) (e :: (dkeys donor).erase e) := List.perm_cons_erase hmem
      have hsplit : ∀ f : ℕ → ℚ,
          ((dkeys donor).map f).sum = f e + (((dkeys donor).erase e).map f).sum := by
        intro f
        rw [(hperm.map f).sum_eq, List.map_cons, List.sum_cons]
      have hrest : (((dkeys donor).erase e).map (dget donor)).sum = dsum donor - dget donor e := by
        have := hsplit (dget donor)
        rw [← dsum_eq_sum_dget donor hnd] at this
        linarith
      rw [dsum_eq_sum_dget d' hnd', hkeys, hsplit (dget d')]
      have hge : dget d' e = 0 := by
        rw [hd', dpt_donor_get e e donor hnd, if_neg h, if_pos rfl]
      have hcongr : (((dkeys donor).erase e).map (dget d')).sum =
          (((dkeys donor).erase e).map
            (fun j => (1 + dget donor e / (dsum donor - dget donor e)) * dget donor j)).sum := by
        apply sum_map_congr_dget
        intro j hj
        rcases (List.Nodup.mem_erase_iff hnd).mp hj with ⟨hjne, hjmem⟩
        rw [hd', dpt_donor_get e j donor hnd, if_neg h, if_neg hjne, if_pos hjmem]
        field_simp
        ring
      rw [hge, hcongr, List.sum_map_mul_left, hrest]
      field_simp
    · have hz : dget donor e = 0 := dget_eq_zero_of_not_mem donor e hmem
      have hcongr : ((dkeys donor).map (dget d')).sum = ((dkeys donor).map (dget donor)).sum := by
        apply sum_map_congr_dget
        intro j hj
        have hjne : j ≠ e := fun hc => hmem (hc ▸ hj)
        rw [hd', dpt_donor_get e j donor hnd, if_neg h, if_neg hjne, if_pos hj, hz]
        ring
      rw [dsum_eq_sum_dget d' hnd', hkeys, hcongr, ← dsum_eq_sum_dget donor hnd]

/-!
Sign and monotonicity facts about the two transfers, and their effect on the
whole ledger.
-/

/-- Every lookup in the donor dict is nonnegative. -/
def DonorNonneg (d : Donor) : Prop := ∀ k, 0 ≤ dget d k

theorem dsum_nonneg_of_dget (d : Donor) (hnd : (dkeys d).Nodup) (h : DonorNonneg d) :
    0 ≤ dsum d := by
  rw [dsum_eq_sum_dget d hnd]
  apply List.sum_nonneg
  intro x hx
  rcases List.mem_map.mp hx with ⟨k, _, rfl⟩
  exact h k

theorem donorNonneg_dset_zero (donor : Donor) (sel : ℕ) (h : DonorNonneg donor) :
    DonorNonneg (dset donor sel 0) := by
  intro j
  by_cases hj : j = sel
  · subst hj
    by_cases hjm : j ∈ dkeys donor
    · rw [dget_dset_self donor j 0 hjm]
    · rw [dget_dset_of_not_mem donor j 0 hjm]
      exact h j
  · rw [dget_dset_ne donor sel j 0 hj]
    exact h j

theorem erp_donor_nonneg (sel : ℕ) (gama : ℚ) (donor : Donor)
    (hnd : (dkeys donor).Nodup) (hsel : sel ∈ dkeys donor) (hg : gama ≤ 1)
    (h : DonorNonneg donor) :
    DonorNonneg (excess_redistribution_procedure_donor sel gama donor) := by
  intro k
  by_cases hk : k = sel
  · rw [hk, erp_donor_get_sel sel gama donor hsel]
  · rw [erp_donor_get_ne sel k gama donor hnd hk]
    by_cases hc : k ∈ dkeys donor ∧ dsum (dset donor sel 0) ≠ 0
    · rw [if_pos hc]
      have htot0 : 0 ≤ dsum (dset donor sel 0) :=
        dsum_nonneg_of_dget _ (by rw [dkeys_dset]; exact hnd) (donorNonneg_dset_zero donor sel h)
      have hdist : 0 ≤ dget donor sel * (1 - gama) := mul_nonneg (h sel) (by linarith)
      have hq : 0 ≤ dget donor k / dsum (dset donor sel 0) := div_nonneg (h k) htot0
      have := mul_nonneg hdist hq
      linarith [h k]
    · rw [if_neg hc]
      exact h k

theorem erp_donor_mono (sel k : ℕ) (gama : ℚ) (donor : Donor)
    (hnd : (dkeys donor).Nodup) (hg : gama ≤ 1) (h : DonorNonneg donor) (hk : k ≠ sel) :
    dget donor k ≤ dget (excess_redistribution_procedure_donor sel gama donor) k := by
  rw [erp_donor_get_ne sel k gama donor hnd hk]
  by_cases hc : k ∈ dkeys donor ∧ dsum (dset donor sel 0) ≠ 0
  · rw [if_pos hc]
    have htot0 : 0 ≤ dsum (dset donor sel 0) :=
      dsum_nonneg_of_dget _ (by rw [dkeys_dset]; exact hnd) (donorNonneg_dset_zero donor sel h)
    have hdist : 0 ≤ dget donor sel * (1 - gama) := mul_nonneg (h sel) (by linarith)
    have hq : 0 ≤ dget donor k / dsum (dset donor sel 0) := div_nonneg (h k) htot0
    have := mul_nonneg hdist hq
    linarith
  · rw [if_neg hc]

theorem dpt_total_nonneg (e : ℕ) (donor : Donor) (hnd : (dkeys donor).Nodup)
    (h : DonorNonneg donor) : 0 ≤ dsum donor - dget donor e := by
  by_cases hmem : e ∈ dkeys donor
  · rw [← dsum_dset_zero donor e hnd]
    exact dsum_nonneg_of_dget _ (by rw [dkeys_dset]; exact hnd) (donorNonneg_dset_zero donor e h)
  · rw [dget_eq_zero_of_not_mem donor e hmem]
    have := dsum_nonneg_of_dget donor hnd h
    linarith

theorem dpt_donor_nonneg (e : ℕ) (donor : Donor) (hnd : (dkeys donor).Nodup)
    (h : DonorNonneg donor) :
    DonorNonneg (distribute_project_support_donor e donor) := by
  intro k
  rw [dpt_donor_get e k donor hnd]
  by_cases h0 : dsum donor - dget donor e = 0
  · rw [if_pos h0]
    exact h k
  · rw [if_neg h0]
    by_cases hke : k = e
    · rw [if_pos hke]
    · rw [if_neg hke]
      by_cases hmem : k ∈ dkeys donor
      · rw [if_pos hmem]
        have htot0 : 0 ≤ dsum donor - dget donor e := dpt_total_nonneg e donor hnd h
        have hq : 0 ≤ dget donor k / (dsum donor - dget donor e) := div_nonneg (h k) htot0
        have := mul_nonneg (h e) hq
        linarith [h k]
      · rw [if_neg hmem]
        exact h k

theorem dpt_donor_mono (e k : ℕ) (donor : Donor) (hnd : (dkeys donor).Nodup)
    (h : DonorNonneg donor) (hk : k ≠ e) :
    dget donor k ≤ dget (distribute_project_support_donor e donor) k := by
  rw [dpt_donor_get e k donor hnd]
  by_cases h0 : dsum donor - dget donor e = 0
  · rw [if_pos h0]
  · rw [if_neg h0, if_neg hk]
    by_cases hmem : k ∈ dkeys donor
    · rw [if_pos hmem]
      have htot0 : 0 ≤ dsum donor - dget donor e := dpt_total_nonneg e donor hnd h
      have hq : 0 ≤ dget donor k / (dsum donor - dget donor e) := div_nonneg (h k) htot0
      have := mul_nonneg (h e) hq
      linarith
    · rw [if_neg hmem]

/-- Keys shared by every donor dict in the ledger. -/
def LedgerKeys (donors : List Donor) (names : List ℕ) : Prop :=
  ∀ d ∈ donors, dkeys d = names

/-- Nonnegativity of every entry of the ledger. -/
def LedgerNonneg (donors : List Donor) : Prop :=
  ∀ d ∈ donors, DonorNonneg d

theorem support_nonneg (donors : List Donor) (k : ℕ) (h : LedgerNonneg donors) :
    0 ≤ support donors k := by
  apply List.sum_nonneg
  intro x hx
  rcases List.mem_map.mp hx with ⟨d, hd, rfl⟩
  exact h d hd k

theorem ledgerTotal_nonneg (donors : List Donor) (names : List ℕ)
    (hk : LedgerKeys donors names) (hnd : names.Nodup) (h : LedgerNonneg donors) :
    0 ≤ ledgerTotal donors := by
  apply List.sum_nonneg
  intro x hx
  rcases List.mem_map.mp hx with ⟨d, hd, rfl⟩
  exact dsum_nonneg_of_dget d (by rw [hk d hd]; exact hnd) (h d hd)

theorem erp_ledger_keys (donors : List Donor) (sel : ℕ) (gama : ℚ) (names : List ℕ)
    (hk : LedgerKeys donors names) :
    LedgerKeys (excess_redistribution_procedure donors sel gama) names := by
  intro d hd
  rcases List.mem_map.mp hd with ⟨d0, hd0, rfl⟩
  rw [erp_donor_dkeys]
  exact hk d0 hd0

theorem erp_ledger_nonneg (donors : List Donor) (sel : ℕ) (gama : ℚ) (names : List ℕ)
    (hk : LedgerKeys donors names) (hnd : names.Nodup) (hsel : sel ∈ names) (hg : gama ≤ 1)
    (h : LedgerNonneg donors) :
    LedgerNonneg (excess_redistribution_procedure donors sel gama) := by
  intro d hd
  rcases List.mem_map.mp hd with ⟨d0, hd0, rfl⟩
  exact erp_donor_nonneg sel gama d0 (by rw [hk d0 hd0]; exact hnd)
    (by rw [hk d0 hd0]; exact hsel) hg (h d0 hd0)

theorem erp_support_mono (donors : List Donor) (sel k : ℕ) (gama : ℚ) (names : List ℕ)
    (hk : LedgerKeys donors names) (hnd : names.Nodup) (hg : gama ≤ 1)
    (h : LedgerNonneg donors) (hne : k ≠ sel) :
    support donors k ≤ support (excess_redistribution_procedure donors sel gama) k := by
  unfold support excess_redistribution_procedure
  rw [List.map_map]
  apply List.sum_le_sum
  intro d hd
  exact erp_donor_mono sel k gama d (by rw [hk d hd]; exact hnd) hg (h d hd) hne

theorem sum_map_sub_mul (donors : List Donor) (gama : ℚ) (sel : ℕ) :
    (donors.map (fun d => dsum d - gama * dget d sel)).sum =
      (donors.map dsum).sum - gama * (donors.map (fun d => dget d sel)).sum := by
  induction donors with
  | nil => simp
  | cons d rest ih =>
      simp only [List.map_cons, List.sum_cons, ih]
      ring

theorem erp_ledgerTotal_le (donors : List Donor) (sel : ℕ) (gama : ℚ) (names : List ℕ)
    (hk : LedgerKeys donors names) (hnd : names.Nodup) (hsel : sel ∈ names) (hg : gama ≤ 1)
    (h : LedgerNonneg donors) :
    ledgerTotal (excess_redistribution_procedure donors sel gama) ≤
      ledgerTotal donors - gama * support donors sel := by
  unfold ledgerTotal excess_redistribution_procedure support
  rw [List.map_map]
  have hsum : ∀ d ∈ donors, dsum (excess_redistribution_procedure_donor sel gama d) ≤
      dsum d - gama * dget d sel := by
    intro d hd
    have hnd' : (dkeys d).Nodup := by rw [hk d hd]; exact hnd
    have hsel' : sel ∈ dkeys d := by rw [hk d hd]; exact hsel
    rw [erp_donor_dsum sel gama d hnd' hsel']
    by_cases htz : dsum (dset d sel 0) ≠ 0
    · rw [if_pos htz]
    · rw [if_neg htz]
      have : gama * dget d sel ≤ dget d sel := by
        have h0 : 0 ≤ dget d sel := h d hd sel
        nlinarith
      linarith
  calc ((donors.map (fun d => dsum (excess_redistribution_procedure_donor sel gama d))).sum)
      ≤ (donors.map (fun d => dsum d - gama * dget d sel)).sum := by
        apply List.sum_le_sum
        intro d hd
        exact hsum d hd
    _ = (donors.map dsum).sum - gama * (donors.map (fun d => dget d sel)).sum :=
        sum_map_sub_mul donors gama sel

theorem zeroReset_ledgerTotal (donors : List Donor) (sel : ℕ) (names : List ℕ)
    (hk : LedgerKeys donors names) (hnd : names.Nodup) :
    ledgerTotal (donors.map (fun d => dset d sel 0)) = ledgerTotal donors - support donors sel := by
  unfold ledgerTotal support
  rw [List.map_map]
  induction donors with
  | nil => simp
  | cons d rest ih =>
      have hknd : (dkeys d).Nodup := by rw [hk d (List.mem_cons_self _ _)]; exact hnd
      have hkrest : LedgerKeys rest names := fun d' hd' => hk d' (List.mem_cons_of_mem _ hd')
      simp only [List.map_cons, List.sum_cons, Function.comp]
      rw [dsum_dset_zero d sel hknd, ih hkrest]
      ring

theorem zeroReset_support_ne (donors : List Donor) (sel k : ℕ) (hne : k ≠ sel) :
    support (donors.map (fun d => dset d sel 0)) k = support donors k := by
  unfold support
  rw [List.map_map]
  apply sum_map_congr_dget
  intro d _
  show dget (dset d sel 0) k = dget d k
  exact dget_dset_ne d sel k 0 hne

theorem zeroReset_ledger_keys (donors : List Donor) (sel : ℕ) (names : List ℕ)
    (hk : LedgerKeys donors names) :
    LedgerKeys (donors.map (fun d => dset d sel 0)) names := by
  intro d hd
  rcases List.mem_map.mp hd with ⟨d0, hd0, rfl⟩
  rw [dkeys_dset]
  exact hk d0 hd0

theorem zeroReset_ledger_nonneg (donors : List Donor) (sel : ℕ)
    (h : LedgerNonneg donors) :
    LedgerNonneg (donors.map (fun d => dset d sel 0)) := by
  intro d hd
  rcases List.mem_map.mp hd with ⟨d0, hd0, rfl⟩
  exact donorNonneg_dset_zero d0 sel (h d0 hd0)

theorem dpt_ledger_keys (donors : List Donor) (e : ℕ) (names : List ℕ)
    (hk : LedgerKeys donors names) :
    LedgerKeys (distribute_project_support donors e) names := by
  intro d hd
  rcases List.mem_map.mp hd with ⟨d0, hd0, rfl⟩
  rw [dpt_donor_dkeys]
  exact hk d0 hd0

theorem dpt_ledger_nonneg (donors : List Donor) (e : ℕ) (names : List ℕ)
    (hk : LedgerKeys donors names) (hnd : names.Nodup) (h : LedgerNonneg donors) :
    LedgerNonneg (distribute_project_support donors e) := by
  intro d hd
  rcases List.mem_map.mp hd with ⟨d0, hd0, rfl⟩
  exact dpt_donor_nonneg e d0 (by rw [hk d0 hd0]; exact hnd) (h d0 hd0)

theorem dpt_ledgerTotal (donors : List Donor) (e : ℕ) (names : List ℕ)
    (hk : LedgerKeys donors names) (hnd : names.Nodup) :
    ledgerTotal (distribute_project_support donors e) = ledgerTotal donors := by
  unfold ledgerTotal distribute_project_support
  rw [List.map_map]
  apply sum_map_congr_dget
  intro d hd
  show dsum (distribute_project_support_donor e d) = dsum d
  exact dpt_donor_dsum e d (by rw [hk d hd]; exact hnd)

theorem dpt_support_mono (donors : List Donor) (e k : ℕ) (names : List ℕ)
    (hk : LedgerKeys donors names) (hnd : names.Nodup) (h : LedgerNonneg donors) (hne : k ≠ e) :
    support donors k ≤ support (distribute_project_support donors e) k := by
  unfold support distribute_project_support
  rw [List.map_map]
  apply List.sum_le_sum
  intro d hd
  exact dpt_donor_mono e k d (by rw [hk d hd]; exact hnd) (h d hd) hne

/-!
Facts about the eligibility, selection and tie-breaking functions.
-/

theorem mem_is_eligible_ge (projects : List Project) (donors : List Donor) (p : Project) :
    p ∈ is_eligible_ge projects donors ↔
      p ∈ projects ∧ 0 ≤ support donors p.name - p.cost := by
  simp [is_eligible_ge, List.mem_filter]

theorem mem_is_eligible_gsc (projects : List Project) (donors : List Donor) (p : Project) :
    p ∈ is_eligible_gsc projects donors ↔
      p ∈ projects ∧ 1 ≤ support donors p.name / p.cost := by
  simp [is_eligible_gsc, List.mem_filter]

theorem eligibleBy_subset (er : EligibleRule) (projects : List Project) (donors : List Donor) :
    ∀ p ∈ eligibleBy er projects donors, p ∈ projects := by
  intro p hp
  cases er
  · exact ((mem_is_eligible_ge projects donors p).mp hp).1
  · exact ((mem_is_eligible_gsc projects donors p).mp hp).1

theorem eligible_excess_nonneg (er : EligibleRule) (projects : List Project)
    (donors : List Donor) (p : Project) (hc : 0 < p.cost)
    (hp : p ∈ eligibleBy er projects donors) :
    0 ≤ support donors p.name - p.cost := by
  cases er
  · exact ((mem_is_eligible_ge projects donors p).mp hp).2
  · have h := ((mem_is_eligible_gsc projects donors p).mp hp).2
    have := (one_le_div hc).mp h
    linarith

theorem selectBy_subset (sr : SelectRule) (projects : List Project) (donors : List Donor) :
    ∀ p ∈ selectBy sr projects donors, p ∈ projects := by
  intro p hp
  cases sr
  · exact (List.mem_filter.mp hp).1
  · exact (List.mem_filter.mp hp).1

theorem selectBy_ne_nil (sr : SelectRule) (projects : List Project) (donors : List Donor)
    (h : projects ≠ []) : selectBy sr projects donors ≠ [] := by
  cases sr
  · have hm : listMax (projects.map (fun p => support donors p.name - p.cost)) ∈
        projects.map (fun p => support donors p.name - p.cost) :=
      listMax_mem _ (by simpa using h)
    rcases List.mem_map.mp hm with ⟨p, hp, hv⟩
    have : p ∈ select_project_ge projects donors := by
      simp only [select_project_ge, List.mem_filter]
      exact ⟨hp, by simp [hv]⟩
    intro hnil
    have hnil' : select_project_ge projects donors = [] := hnil
    rw [hnil'] at this
    simp at this
  · have hm : listMax (projects.map (fun p => support donors p.name / p.cost)) ∈
        projects.map (fun p => support donors p.name / p.cost) :=
      listMax_mem _ (by simpa using h)
    rcases List.mem_map.mp hm with ⟨p, hp, hv⟩
    have : p ∈ select_project_gsc projects donors := by
      simp only [select_project_gsc, List.mem_filter]
      exact ⟨hp, by simp [hv]⟩
    intro hnil
    have hnil' : select_project_gsc projects donors = [] := hnil
    rw [hnil'] at this
    simp at this

theorem lexico_untie_mem (t : Project) (ts : List Project) :
    lexico_tie_breaking_untie (t :: ts) ∈ t :: ts := by
  show List.foldl (fun best p => if p.name < best.name then p else best)
      ((t :: ts).headD defaultProject) (t :: ts) ∈ t :: ts
  simp only [List.headD_cons, List.foldl_cons]
  rw [if_neg (lt_irrefl _)]
  exact argminKey_mem (fun p => p.name) t ts

/-- The project the controller funds in a round with a nonempty eligible set
belongs to the tied selection. -/
theorem chosen_mem_tied (tied : List Project) (h : tied ≠ []) :
    (if tied.length > 1 then lexico_tie_breaking_untie tied else tied.headD defaultProject) ∈ tied := by
  match tied with
  | t :: ts =>
      by_cases hl : (t :: ts).length > 1
      · rw [if_pos hl]
        exact lexico_untie_mem t ts
      · rw [if_neg hl]
        simp

/-!
Characterization of `elimination_with_transfers`.
-/

theorem ewt_nil (donors : List Donor) (elim : List Project) :
    elimination_with_transfers [] donors elim = (false, [], donors, elim) := by
  rfl

theorem ewt_single (p : Project) (donors : List Donor) (elim : List Project) :
    elimination_with_transfers [p] donors elim = (false, [], donors, elim ++ [p]) := by
  rfl

theorem ewt_of_two_le (projects : List Project) (donors : List Donor) (elim : List Project)
    (h : 2 ≤ projects.length) :
    ∃ m, m ∈ projects ∧
      (∀ q ∈ projects, support donors m.name - m.cost ≤ support donors q.name - q.cost) ∧
      elimination_with_transfers projects donors elim =
        (true, projects.erase m, distribute_project_support donors m.name, elim ++ [m]) := by
  match projects with
  | p :: rest =>
      refine ⟨argminKey (fun q => support donors q.name - q.cost) p rest,
        argminKey_mem _ p rest,
        argminKey_le (fun q => support donors q.name - q.cost) p rest, ?_⟩
      show (if (p :: rest).length < 2 then _ else _) = _
      rw [if_neg (Nat.not_lt.mpr h)]

/-!
Shape lemmas for `minimal_transfer`.
-/

theorem mtLoop_ok_shape (projects : List Project) (chosen : Project) (dsel : List ℕ)
    (elim : List Project) (fuel num : ℕ) (donors : List Donor) (r : ℚ)
    (flag : Bool) (d' : List Donor) (e' : List Project)
    (h : mtLoop projects chosen dsel elim fuel num donors r = .ok (flag, d', e')) :
    (flag = true ∧ e' = elim) ∨ (flag = false ∧ e' = elim ++ projects) := by
  induction fuel generalizing num donors r with
  | zero =>
      unfold mtLoop at h
      by_cases h1 : 1 ≤ r
      · rw [if_pos h1] at h
        injection h with h
        injection h with hf hrest
        injection hrest with hd he
        exact Or.inl ⟨hf.symm, he.symm⟩
      · rw [if_neg h1] at h
        by_cases h2 : allOnChosen donors dsel chosen.name
        · rw [if_pos h2] at h
          injection h with h
          injection h with hf hrest
          injection hrest with hd he
          exact Or.inr ⟨hf.symm, he.symm⟩
        · rw [if_neg h2] at h
          by_cases h3 : num + 1 > 10000
          · rw [if_pos h3] at h
            exact absurd h (by simp)
          · rw [if_neg h3] at h
            exact absurd h (by simp)
  | succ fuel ih =>
      unfold mtLoop at h
      by_cases h1 : 1 ≤ r
      · rw [if_pos h1] at h
        injection h with h
        injection h with hf hrest
        injection hrest with hd he
        exact Or.inl ⟨hf.symm, he.symm⟩
      · rw [if_neg h1] at h
        by_cases h2 : allOnChosen donors dsel chosen.name
        · rw [if_pos h2] at h
          injection h with h
          injection h with hf hrest
          injection hrest with hd he
          exact Or.inr ⟨hf.symm, he.symm⟩
        · rw [if_neg h2] at h
          by_cases h3 : num + 1 > 10000
          · rw [if_pos h3] at h
            exact absurd h (by simp)
          · rw [if_neg h3] at h
            exact ih (num + 1) _ _ h


theorem mtLoop_no_fuelOut (projects : List Project) (chosen : Project) (dsel : List ℕ)
    (elim : List Project) (fuel num : ℕ) (donors : List Donor) (r : ℚ)
    (hfuel : 10000 ≤ fuel + num) :
    mtLoop projects chosen dsel elim fuel num donors r ≠ .error .outOfFuel := by
  induction fuel generalizing num donors r with
  | zero =>
      unfold mtLoop
      by_cases h1 : 1 ≤ r
      · rw [if_pos h1]
        simp
      · rw [if_neg h1]
        by_cases h2 : allOnChosen donors dsel chosen.name
        · rw [if_pos h2]
          simp
        · rw [if_neg h2]
          have h3 : num + 1 > 10000 := by omega
          rw [if_pos h3]
          simp
  | succ fuel ih =>
      unfold mtLoop
      by_cases h1 : 1 ≤ r
      · rw [if_pos h1]
        simp
      · rw [if_neg h1]
        by_cases h2 : allOnChosen donors dsel chosen.name
        · rw [if_pos h2]
          simp
        · rw [if_neg h2]
          by_cases h3 : num + 1 > 10000
          · rw [if_pos h3]
            simp
          · rw [if_neg h3]
            exact ih (num + 1) _ _ (by omega)

theorem minimal_transfer_no_fuelOut (selProc : List Project → List Donor → List Project)
    (projects : List Project) (donors : List Donor) (elim : List Project) :
    minimal_transfer selProc projects donors elim ≠ .error .outOfFuel := by
  unfold minimal_transfer
  by_cases h : (projects.filter (fun proj => decide (proj.cost ≤ sumOfDon donors proj.name))).isEmpty
  · rw [if_pos h]
    simp
  · rw [if_neg h]
    exact mtLoop_no_fuelOut _ _ _ _ 10001 0 _ _ (by omega)

theorem minimal_transfer_ok_shape (selProc : List Project → List Donor → List Project)
    (projects : List Project) (donors : List Donor) (elim : List Project)
    (flag : Bool) (d' : List Donor) (e' : List Project)
    (h : minimal_transfer selProc projects donors elim = .ok (flag, d', e')) :
    (flag = true ∧ e' = elim) ∨ (flag = false ∧ (e' = elim ∨ e' = elim ++ projects)) := by
  unfold minimal_transfer at h
  by_cases hc : (projects.filter (fun proj => decide (proj.cost ≤ sumOfDon donors proj.name))).isEmpty
  · rw [if_pos hc] at h
    injection h with h
    injection h with hf hrest
    injection hrest with hd he
    exact Or.inr ⟨hf.symm, Or.inl he.symm⟩
  · rw [if_neg hc] at h
    rcases mtLoop_ok_shape _ _ _ _ _ _ _ _ _ _ _ h with ⟨hf, he⟩ | ⟨hf, he⟩
    · exact Or.inl ⟨hf, he⟩
    · exact Or.inr ⟨hf, Or.inr he⟩

/-!
Facts about the post-processors.
-/

/-- Total cost of a list of projects. -/
def costSum (l : List Project) : ℚ := (l.map Project.cost).sum

theorem costSum_nil : costSum [] = 0 := rfl

theorem costSum_append (l1 l2 : List Project) : costSum (l1 ++ l2) = costSum l1 + costSum l2 := by
  simp [costSum]

theorem acceptance_two_param_nil (proc : SelectionProc) (fuel : ℕ)
    (selected : List Project) (donors : List Donor) (budget : ℚ) :
    acceptance_of_under_supported_projects proc fuel selected donors [] budget =
      .ok (selected, []) := by
  unfold acceptance_of_under_supported_projects
  rfl

theorem acceptance_two_param_cons (proc : SelectionProc) (hp : proc.paramCount = 2) (fuel : ℕ)
    (selected : List Project) (donors : List Donor) (e : Project) (elimRest : List Project)
    (budget : ℚ) :
    acceptance_of_under_supported_projects proc fuel selected donors (e :: elimRest) budget =
      .error .typeErrorArity := by
  unfold acceptance_of_under_supported_projects
  rw [if_pos (by rw [hp]; omega)]

theorem reverse_eliminations_cons (sel : List Project) (p : Project) (rest : List Project)
    (budget : ℚ) :
    reverse_eliminations sel (p :: rest) budget =
      if p.cost ≤ budget then reverse_eliminations (sel ++ [p]) rest (budget - p.cost)
      else reverse_eliminations sel rest budget := by
  unfold reverse_eliminations
  rw [List.foldl_cons]
  dsimp only
  by_cases hb : p.cost ≤ budget
  · simp [hb]
  · simp [hb]

theorem reverse_eliminations_spec (elim : List Project) :
    ∀ (sel : List Project) (budget : ℚ),
      ∃ l, reverse_eliminations sel elim budget = sel ++ l ∧ l.Sublist elim ∧
        ((∀ p ∈ elim, 0 ≤ p.cost) → costSum l ≤ max budget 0) := by
  induction elim with
  | nil =>
      intro sel budget
      refine ⟨[], by simp [reverse_eliminations], List.Sublist.refl _, ?_⟩
      intro _
      simp [costSum]
  | cons p rest ih =>
      intro sel budget
      by_cases hb : p.cost ≤ budget
      · rcases ih (sel ++ [p]) (budget - p.cost) with ⟨l, hl, hsub, hcost⟩
        refine ⟨p :: l, ?_, List.Sublist.cons₂ p hsub, ?_⟩
        · rw [reverse_eliminations_cons, if_pos hb, hl]
          simp
        · intro hc
          have h0 : 0 ≤ p.cost := hc p (List.mem_cons_self _ _)
          have hcost' := hcost (fun q hq => hc q (List.mem_cons_of_mem _ hq))
          have hsum : costSum (p :: l) = p.cost + costSum l := by
            simp [costSum]
          rw [hsum]
          have hmax : max (budget - p.cost) 0 = budget - p.cost := by
            rw [max_eq_left]
            linarith
          rw [hmax] at hcost'
          have : 0 ≤ budget := le_trans h0 hb
          rw [max_eq_left this]
          linarith
      · rcases ih sel budget with ⟨l, hl, hsub, hcost⟩
        refine ⟨l, ?_, List.Sublist.cons p hsub, ?_⟩
        · rw [reverse_eliminations_cons, if_neg hb, hl]
        · intro hc
          exact hcost (fun q hq => hc q (List.mem_cons_of_mem _ hq))

/-!
Run-level invariants of the controller.
-/

/-- The project names of the instance, in order. -/
def namesOf (inst : List Project) : List ℕ := inst.map Project.name

theorem donorNonneg_of_entries (d : Donor) (h : ∀ kv ∈ d, 0 ≤ kv.2) : DonorNonneg d := by
  intro k
  induction d with
  | nil => simp
  | cons kv rest ih =>
      rw [dget_cons]
      by_cases he : kv.1 = k
      · rw [if_pos he]
        exact h kv (List.mem_cons_self _ _)
      · rw [if_neg he]
        exact ih (fun kv' hkv' => h kv' (List.mem_cons_of_mem _ hkv'))

/-- Nonnegative cumulative profile: every ballot has nonnegative entries and
multiplicity. -/
def ProfileNonneg (profile : List Ballot) : Prop :=
  ∀ b ∈ profile, 0 ≤ b.multiplicity ∧ ∀ kv ∈ b.entries, 0 ≤ kv.2

theorem donationsOf_keys (inst : PBInstance) (profile : List Ballot) :
    LedgerKeys (donationsOf inst profile) (namesOf inst.projects) := by
  intro d hd
  rcases List.mem_map.mp hd with ⟨b, _, rfl⟩
  show dkeys (inst.projects.map fun p => (p.name, dget b.entries p.name * b.multiplicity)) = _
  unfold dkeys namesOf
  rw [List.map_map]
  rfl

theorem donationsOf_nonneg (inst : PBInstance) (profile : List Ballot)
    (h : ProfileNonneg profile) : LedgerNonneg (donationsOf inst profile) := by
  intro d hd
  rcases List.mem_map.mp hd with ⟨b, hb, rfl⟩
  apply donorNonneg_of_entries
  intro kv hkv
  rcases List.mem_map.mp hkv with ⟨p, _, rfl⟩
  have hbal := h b hb
  have hball : 0 ≤ dget b.entries p.name := by
    apply donorNonneg_of_entries b.entries hbal.2
  exact mul_nonneg hball hbal.1

/-- Invariant of the controller's state: the three project collections
partition the instance (as a multiset); under the elimination-with-transfers
resolver the ledger is well-formed and the funded cost plus the remaining
ledger never exceeds the initial donor capital; and every project whose
initial excess support is nonnegative is already selected or still current
with enough support. -/
def Inv (cfg : StrategyConfig) (inst : List Project) (initDonors : List Donor)
    (s : RunState) : Prop :=
  ((s.current : Multiset Project) + ↑s.selected + ↑s.eliminated = ↑inst) ∧
  (cfg.resolver = ResolverRule.elimWithTransfers →
    (LedgerKeys s.donors (namesOf inst) ∧ LedgerNonneg s.donors ∧
     costSum s.selected + ledgerTotal s.donors ≤ ledgerTotal initDonors)) ∧
  ((∀ q ∈ inst, 0 ≤ support initDonors q.name - q.cost → q ∈ s.selected) ∨
   (LedgerKeys s.donors (namesOf inst) ∧ LedgerNonneg s.donors ∧
    ∀ q ∈ inst, 0 ≤ support initDonors q.name - q.cost →
      q ∈ s.selected ∨ (q ∈ s.current ∧ q.cost ≤ support s.donors q.name)))

/-- What the claims assert of a successfully returned final state. -/
def FinalOK (cfg : StrategyConfig) (inst : List Project) (initDonors : List Donor)
    (fs : RunState) : Prop :=
  fs.selected.Nodup ∧ (∀ p ∈ fs.selected, p ∈ inst) ∧
  (∀ q ∈ inst, 0 ≤ support initDonors q.name - q.cost → q ∈ fs.selected) ∧
  (cfg.resolver = ResolverRule.elimWithTransfers →
    costSum fs.selected ≤ ledgerTotal initDonors)

theorem inv_init (cfg : StrategyConfig) (inst : PBInstance) (profile : List Ballot)
    (hpn : ProfileNonneg profile) :
    Inv cfg inst.projects (donationsOf inst profile)
      ⟨inst.projects, [], [], donationsOf inst profile⟩ := by
  refine ⟨by simp, ?_, ?_⟩
  · intro _
    exact ⟨donationsOf_keys inst profile, donationsOf_nonneg inst profile hpn,
      by simp [costSum]⟩
  · right
    refine ⟨donationsOf_keys inst profile, donationsOf_nonneg inst profile hpn, ?_⟩
    intro q hq hexc
    exact Or.inr ⟨hq, by linarith⟩

/-- A project that is still current with support at least its cost is
eligible, under either eligibility rule (costs being positive). -/
theorem eligible_of_support (er : EligibleRule) (projects : List Project)
    (donors : List Donor) (q : Project) (hc : 0 < q.cost) (hq : q ∈ projects)
    (hs : q.cost ≤ support donors q.name) :
    q ∈ eligibleBy er projects donors := by
  cases er
  · exact (mem_is_eligible_ge projects donors q).mpr ⟨hq, by linarith⟩
  · exact (mem_is_eligible_gsc projects donors q).mpr ⟨hq, (one_le_div hc).mpr hs⟩

theorem no_eligible_loop_entry (cfg : StrategyConfig) (fuel : ℕ) (current : List Project)
    (donors : List Donor) (elim : List Project)
    (res : Bool × List Project × List Donor × List Project)
    (h : no_eligible_loop cfg fuel current donors elim = .ok res) :
    ((eligibleBy cfg.eligible current donors).isEmpty = false ∧
      res = (true, current, donors, elim)) ∨
    (eligibleBy cfg.eligible current donors).isEmpty = true := by
  match fuel with
  | 0 => exact absurd h (by simp [no_eligible_loop])
  | fuel + 1 =>
      unfold no_eligible_loop at h
      by_cases he : (eligibleBy cfg.eligible current donors).isEmpty
      · exact Or.inr he
      · rw [if_neg he] at h
        injection h with h
        exact Or.inl ⟨by simp [he], h.symm⟩

theorem resolverBy_ewt (cfg : StrategyConfig) (h : cfg.resolver = ResolverRule.elimWithTransfers)
    (current : List Project) (donors : List Donor) (elim : List Project) :
    resolverBy cfg current donors elim = .ok (elimination_with_transfers current donors elim) := by
  unfold resolverBy
  rw [h]

theorem resolverBy_mt (cfg : StrategyConfig) (h : cfg.resolver = ResolverRule.minTransfer)
    (current : List Project) (donors : List Donor) (elim : List Project) :
    resolverBy cfg current donors elim =
      match minimal_transfer (selectBy cfg.select) current donors elim with
      | .ok (flag, donors', elim') => .ok (flag, current, donors', elim')
      | .error e => .error e := by
  unfold resolverBy
  rw [h]

theorem coe_add_eq_of_perm (l1 l2 l3 l4 : List Project)
    (h : List.Perm (l1 ++ l2) (l3 ++ l4)) :
    (l1 : Multiset Project) + ↑l2 = ↑l3 + ↑l4 := by
  have hmm := Multiset.coe_eq_coe.mpr h
  rwa [← Multiset.coe_add, ← Multiset.coe_add] at hmm

theorem no_eligible_loop_flag_true (cfg : StrategyConfig) (fuel : ℕ) :
    ∀ (current : List Project) (donors : List Donor) (elim : List Project)
      (c' : List Project) (d' : List Donor) (e' : List Project),
      no_eligible_loop cfg fuel current donors elim = .ok (true, c', d', e') →
      (eligibleBy cfg.eligible c' d').isEmpty = false := by
  induction fuel with
  | zero =>
      intro current donors elim c' d' e' h
      exact absurd h (by simp [no_eligible_loop])
  | succ fuel ih =>
      intro current donors elim c' d' e' h
      unfold no_eligible_loop at h
      by_cases he : (eligibleBy cfg.eligible current donors).isEmpty
      · rw [if_pos he] at h
        match hres : resolverBy cfg current donors elim with
        | .error e =>
            rw [hres] at h
            exact absurd h (by simp)
        | .ok (true, c1, d1, e1) =>
            rw [hres] at h
            exact ih c1 d1 e1 c' d' e' h
        | .ok (false, c1, d1, e1) =>
            rw [hres] at h
            exact absurd h (by simp)
      · rw [if_neg he] at h
        simp only [Except.ok.injEq, Prod.mk.injEq] at h
        obtain ⟨h1, h2, h3, h4⟩ := h
        subst h2
        subst h3
        simpa using he

theorem no_eligible_loop_ewt (cfg : StrategyConfig)
    (hres : cfg.resolver = ResolverRule.elimWithTransfers) (names : List ℕ)
    (hnodup : names.Nodup) (fuel : ℕ) :
    ∀ (current : List Project) (donors : List Donor) (elim : List Project)
      (flag : Bool) (c' : List Project) (d' : List Donor) (e' : List Project),
      no_eligible_loop cfg fuel current donors elim = .ok (flag, c', d', e') →
      LedgerKeys donors names → LedgerNonneg donors →
      (((c' : Multiset Project) + ↑e') = ↑current + ↑elim ∧
       LedgerKeys d' names ∧ LedgerNonneg d' ∧
       ledgerTotal d' = ledgerTotal donors ∧ c'.length ≤ current.length) := by
  induction fuel with
  | zero =>
      intro current donors elim flag c' d' e' h _ _
      exact absurd h (by simp [no_eligible_loop])
  | succ fuel ih =>
      intro current donors elim flag c' d' e' h hkeys hnn
      unfold no_eligible_loop at h
      by_cases he : (eligibleBy cfg.eligible current donors).isEmpty
      · rw [if_pos he, resolverBy_ewt cfg hres] at h
        rcases hcur : current with _ | ⟨p, _ | ⟨q, rest⟩⟩
        · subst hcur
          rw [ewt_nil] at h
          simp only [Except.ok.injEq, Prod.mk.injEq] at h
          obtain ⟨h1, h2, h3, h4⟩ := h
          subst h2; subst h3; subst h4
          simp [hkeys, hnn]
        · subst hcur
          rw [ewt_single] at h
          simp only [Except.ok.injEq, Prod.mk.injEq] at h
          obtain ⟨h1, h2, h3, h4⟩ := h
          subst h2; subst h3; subst h4
          refine ⟨?_, hkeys, hnn, rfl, by simp⟩
          apply coe_add_eq_of_perm
          show List.Perm ([] ++ (elim ++ [p])) ([p] ++ elim)
          rw [List.nil_append]
          exact List.perm_append_comm
        · subst hcur
          rcases ewt_of_two_le (p :: q :: rest) donors elim (by simp) with
            ⟨m, hm, hminle, heq⟩
          rw [heq] at h
          have hkeys' : LedgerKeys (distribute_project_support donors m.name) names :=
            dpt_ledger_keys donors m.name names hkeys
          have hnn' : LedgerNonneg (distribute_project_support donors m.name) :=
            dpt_ledger_nonneg donors m.name names hkeys hnodup hnn
          have htot : ledgerTotal (distribute_project_support donors m.name) =
              ledgerTotal donors := dpt_ledgerTotal donors m.name names hkeys hnodup
          rcases ih _ _ _ _ _ _ _ h hkeys' hnn' with ⟨hperm, hk2, hn2, ht2, hl2⟩
          refine ⟨?_, hk2, hn2, by rw [ht2, htot], ?_⟩
          · rw [hperm]
            apply coe_add_eq_of_perm
            have hpe : List.Perm ((p :: q :: rest).erase m ++ [m]) (p :: q :: rest) := by
              have hc := List.perm_cons_erase hm
              have h01 : List.Perm ((p :: q :: rest).erase m ++ [m])
                  ([m] ++ (p :: q :: rest).erase m) := List.perm_append_comm
              have h02 : ([m] ++ (p :: q :: rest).erase m) = m :: (p :: q :: rest).erase m := rfl
              rw [h02] at h01
              exact h01.trans hc.symm
            have h03 : List.Perm ((p :: q :: rest).erase m ++ (elim ++ [m]))
                (((p :: q :: rest).erase m ++ [m]) ++ elim) := by
              rw [List.append_assoc]
              exact List.Perm.append_left _ List.perm_append_comm
            exact h03.trans (List.Perm.append_right elim hpe)
          · have hle := List.length_erase_of_mem hm
            calc c'.length ≤ ((p :: q :: rest).erase m).length := hl2
              _ ≤ (p :: q :: rest).length := by rw [hle]; simp
      · rw [if_neg he] at h
        simp only [Except.ok.injEq, Prod.mk.injEq] at h
        obtain ⟨h1, h2, h3, h4⟩ := h
        subst h2; subst h3; subst h4
        simp [hkeys, hnn]

theorem no_eligible_loop_mt (cfg : StrategyConfig)
    (hres : cfg.resolver = ResolverRule.minTransfer) (fuel : ℕ) :
    ∀ (current : List Project) (donors : List Donor) (elim : List Project)
      (flag : Bool) (c' : List Project) (d' : List Donor) (e' : List Project),
      no_eligible_loop cfg fuel current donors elim = .ok (flag, c', d', e') →
      c' = current ∧ (e' = elim ∨ (flag = false ∧ e' = elim ++ current)) := by
  induction fuel with
  | zero =>
      intro current donors elim flag c' d' e' h
      exact absurd h (by simp [no_eligible_loop])
  | succ fuel ih =>
      intro current donors elim flag c' d' e' h
      unfold no_eligible_loop at h
      by_cases he : (eligibleBy cfg.eligible current donors).isEmpty
      · rw [if_pos he, resolverBy_mt cfg hres] at h
        match hmt : minimal_transfer (selectBy cfg.select) current donors elim with
        | .error e =>
            rw [hmt] at h
            exact absurd h (by simp)
        | .ok (true, d1, e1) =>
            rw [hmt] at h
            rcases minimal_transfer_ok_shape _ _ _ _ _ _ _ hmt with ⟨_, he1⟩ | ⟨hf1, _⟩
            · rcases ih _ _ _ _ _ _ _ h with ⟨hc, hel⟩
              refine ⟨hc, ?_⟩
              rcases hel with hel | ⟨hfl, hel⟩
              · exact Or.inl (by rw [hel, he1])
              · exact Or.inr ⟨hfl, by rw [hel, he1]⟩
            · exact absurd hf1 (by simp)
        | .ok (false, d1, e1) =>
            rw [hmt] at h
            simp only [Except.ok.injEq, Prod.mk.injEq] at h
            obtain ⟨h1, h2, h3, h4⟩ := h
            subst h2; subst h4
            rcases minimal_transfer_ok_shape _ _ _ _ _ _ _ hmt with ⟨hf1, _⟩ | ⟨_, he1⟩
            · exact absurd hf1 (by simp)
            · rcases he1 with he1 | he1
              · exact ⟨rfl, Or.inl he1⟩
              · exact ⟨rfl, Or.inr ⟨h1.symm, he1⟩⟩
      · rw [if_neg he] at h
        simp only [Except.ok.injEq, Prod.mk.injEq] at h
        obtain ⟨h1, h2, h3, h4⟩ := h
        subst h2; subst h4
        exact ⟨rfl, Or.inl rfl⟩

theorem name_inj_of_nodup (inst : List Project) (hnames : (namesOf inst).Nodup)
    {a b : Project} (ha : a ∈ inst) (hb : b ∈ inst) (hne : a ≠ b) : a.name ≠ b.name := by
  have hp : inst.Pairwise (fun x y => x.name ≠ y.name) := List.pairwise_map.mp hnames
  have hsym : Symmetric (fun x y : Project => x.name ≠ y.name) := fun x y h => h.symm
  exact List.Pairwise.forall hsym hp ha hb hne

theorem selectProcBy_paramCount (sr : SelectRule) : (selectProcBy sr).paramCount = 2 := by
  cases sr <;> rfl

theorem postprocess_spec (cfg : StrategyConfig) (s : RunState) (budget : ℚ) (fs : RunState)
    (hpost : postprocessBy cfg s budget = .ok fs) :
    ∃ l, fs.selected = s.selected ++ l ∧ l.Sublist s.eliminated ∧
      ((∀ p ∈ s.eliminated, 0 ≤ p.cost) → costSum l ≤ max budget 0) := by
  unfold postprocessBy at hpost
  match hp : cfg.post with
  | PostRule.reverseElims =>
      rw [hp] at hpost
      simp only [Except.ok.injEq] at hpost
      rcases reverse_eliminations_spec s.eliminated s.selected budget with ⟨l, hl, hsub, hcost⟩
      refine ⟨l, ?_, hsub, hcost⟩
      rw [← hpost]
      exact hl
  | PostRule.acceptUnderSupported =>
      rw [hp] at hpost
      match helim : s.eliminated with
      | [] =>
          rw [helim, acceptance_two_param_nil] at hpost
          simp only [Except.ok.injEq] at hpost
          refine ⟨[], ?_, List.Sublist.refl _, ?_⟩
          · rw [← hpost]
            simp
          · intro _
            simp [costSum]
      | e :: elimRest =>
          rw [helim, acceptance_two_param_cons (selectProcBy cfg.select)
            (selectProcBy_paramCount cfg.select)] at hpost
          exact absurd hpost (by simp)

theorem sublist_cost_nonneg (inst : List Project) (hcost : ∀ p ∈ inst, 0 < p.cost)
    (l : List Project) (h : ∀ p ∈ l, p ∈ inst) : ∀ p ∈ l, 0 ≤ p.cost := by
  intro p hp
  exact le_of_lt (hcost p (h p hp))

theorem postprocess_final (cfg : StrategyConfig) (inst : List Project)
    (initDonors : List Donor) (hnames : (namesOf inst).Nodup)
    (hcost : ∀ p ∈ inst, 0 < p.cost)
    (s : RunState) (budget : ℚ) (fs : RunState)
    (hperm : ((s.current : Multiset Project) + ↑s.selected + ↑s.eliminated) = ↑inst)
    (hsel2 : ∀ q ∈ inst, 0 ≤ support initDonors q.name - q.cost → q ∈ s.selected)
    (hcap : cfg.resolver = ResolverRule.elimWithTransfers →
        (LedgerKeys s.donors (namesOf inst) ∧ LedgerNonneg s.donors ∧
         costSum s.selected + ledgerTotal s.donors ≤ ledgerTotal initDonors ∧
         budget = ledgerTotal s.donors))
    (hpost : postprocessBy cfg s budget = .ok fs) :
    FinalOK cfg inst initDonors fs := by
  rcases postprocess_spec cfg s budget fs hpost with ⟨l, hfs, hsub, hlcost⟩
  have hselelim : ((s.selected : Multiset Project) + ↑s.eliminated) ≤ ↑inst := by
    rw [← hperm]
    calc ((s.selected : Multiset Project) + ↑s.eliminated)
        ≤ ↑s.current + (↑s.selected + ↑s.eliminated) := le_add_self
      _ = ↑s.current + ↑s.selected + ↑s.eliminated := by rw [add_assoc]
  have hfsm : (fs.selected : Multiset Project) = ↑s.selected + ↑l := by
    rw [hfs, ← Multiset.coe_add]
  have hlle : (l : Multiset Project) ≤ ↑s.eliminated :=
    Multiset.coe_le.mpr hsub.subperm
  have hfsle : (fs.selected : Multiset Project) ≤ ↑inst := by
    rw [hfsm]
    calc (↑s.selected + ↑l : Multiset Project) ≤ ↑s.selected + ↑s.eliminated :=
          add_le_add_left hlle _
      _ ≤ ↑inst := hselelim
  have hinstnodup : inst.Nodup := List.Nodup.of_map _ hnames
  refine ⟨?_, ?_, ?_, ?_⟩
  · have := Multiset.nodup_of_le hfsle (Multiset.coe_nodup.mpr hinstnodup)
    exact Multiset.coe_nodup.mp this
  · intro p hp
    have : p ∈ (fs.selected : Multiset Project) := by simpa using hp
    simpa using Multiset.mem_of_le hfsle this
  · intro q hq he
    rw [hfs]
    exact List.mem_append_left _ (hsel2 q hq he)
  · intro hres
    rcases hcap hres with ⟨hkeys, hnn, hbound, hbudg⟩
    have helimmem : ∀ p ∈ s.eliminated, p ∈ inst := by
      intro p hp
      have h1 : p ∈ (s.eliminated : Multiset Project) := by simpa using hp
      have h2 : ((s.eliminated : Multiset Project)) ≤ ↑inst := by
        rw [← hperm]
        calc ((s.eliminated : Multiset Project)) ≤
            (↑s.current + ↑s.selected) + ↑s.eliminated := le_add_self
          _ = ↑s.current + ↑s.selected + ↑s.eliminated := rfl
      simpa using Multiset.mem_of_le h2 h1
    have hl2 := hlcost (sublist_cost_nonneg inst hcost s.eliminated helimmem)
    have hb0 : 0 ≤ budget := by
      rw [hbudg]
      exact ledgerTotal_nonneg s.donors (namesOf inst) hkeys hnames hnn
    rw [max_eq_left hb0] at hl2
    have : costSum fs.selected = costSum s.selected + costSum l := by
      rw [hfs, costSum_append]
    rw [this, hbudg] at *
    linarith

theorem funding_update_facts (donors' : List Donor) (p : Project) (names : List ℕ)
    (excess : ℚ) (hexeq : excess = support donors' p.name - p.cost)
    (hk : LedgerKeys donors' names) (hnd : names.Nodup) (hpn : p.name ∈ names)
    (hcost : 0 < p.cost) (hex : 0 ≤ excess) :
    LedgerKeys (if float_0_01 < excess then
        excess_redistribution_procedure donors' p.name (p.cost / (excess + p.cost))
      else donors'.map (fun d => dset d p.name 0)) names ∧
    (LedgerNonneg donors' →
      (LedgerNonneg (if float_0_01 < excess then
          excess_redistribution_procedure donors' p.name (p.cost / (excess + p.cost))
        else donors'.map (fun d => dset d p.name 0)) ∧
       ledgerTotal (if float_0_01 < excess then
          excess_redistribution_procedure donors' p.name (p.cost / (excess + p.cost))
        else donors'.map (fun d => dset d p.name 0)) ≤ ledgerTotal donors' - p.cost ∧
       ∀ k, k ≠ p.name → support donors' k ≤
        support (if float_0_01 < excess then
            excess_redistribution_procedure donors' p.name (p.cost / (excess + p.cost))
          else donors'.map (fun d => dset d p.name 0)) k)) := by
  by_cases hgt : float_0_01 < excess
  · rw [if_pos hgt]
    have hf : (0 : ℚ) < float_0_01 := by norm_num [float_0_01]
    have hs : excess + p.cost = support donors' p.name := by rw [hexeq]; ring
    have hspos : 0 < excess + p.cost := by linarith
    have hgle : p.cost / (excess + p.cost) ≤ 1 := by
      rw [div_le_one hspos]
      linarith
    refine ⟨erp_ledger_keys donors' p.name _ names hk, ?_⟩
    intro hnn
    refine ⟨erp_ledger_nonneg donors' p.name _ names hk hnd hpn hgle hnn, ?_, ?_⟩
    · have hle := erp_ledgerTotal_le donors' p.name (p.cost / (excess + p.cost)) names hk hnd
        hpn hgle hnn
      have hcc : p.cost / (excess + p.cost) * support donors' p.name = p.cost := by
        rw [← hs]
        exact div_mul_cancel₀ p.cost (ne_of_gt hspos)
      linarith
    · intro k hkne
      exact erp_support_mono donors' p.name k _ names hk hnd hgle hnn hkne
  · rw [if_neg hgt]
    refine ⟨zeroReset_ledger_keys donors' p.name names hk, ?_⟩
    intro hnn
    refine ⟨zeroReset_ledger_nonneg donors' p.name hnn, ?_, ?_⟩
    · rw [zeroReset_ledgerTotal donors' p.name names hk hnd]
      have hcc : p.cost ≤ support donors' p.name := by
        rw [hexeq] at hex
        linarith
      linarith
    · intro k hkne
      rw [zeroReset_support_ne donors' p.name k hkne]

theorem erase_append_perm (c : List Project) (P : Project) (hP : P ∈ c) (l : List Project) :
    List.Perm (c.erase P ++ (l ++ [P])) (c ++ l) := by
  have hpe : List.Perm (c.erase P ++ [P]) c := by
    have hc := List.perm_cons_erase hP
    have h01 : List.Perm (c.erase P ++ [P]) ([P] ++ c.erase P) := List.perm_append_comm
    have h02 : ([P] ++ c.erase P) = P :: c.erase P := rfl
    rw [h02] at h01
    exact h01.trans hc.symm
  have h03 : List.Perm (c.erase P ++ (l ++ [P])) ((c.erase P ++ [P]) ++ l) := by
    rw [List.append_assoc]
    exact List.Perm.append_left _ List.perm_append_comm
  exact h03.trans (List.Perm.append_right l hpe)

theorem add_shuffle1 (a b c d e : Multiset Project) (h : a + c = d + e) :
    a + b + c = d + b + e := by
  calc a + b + c = a + c + b := by rw [add_assoc, add_comm b c, ← add_assoc]
    _ = d + e + b := by rw [h]
    _ = d + b + e := by rw [add_assoc, add_comm e b, ← add_assoc]

theorem jbranch_to_A (cfg : StrategyConfig) (inst : List Project) (initDonors : List Donor)
    (hcost : ∀ p ∈ inst, 0 < p.cost) (current : List Project) (donors : List Donor)
    (selected : List Project)
    (hempty : (eligibleBy cfg.eligible current donors).isEmpty = true)
    (hB : ∀ q ∈ inst, 0 ≤ support initDonors q.name - q.cost →
      q ∈ selected ∨ (q ∈ current ∧ q.cost ≤ support donors q.name)) :
    ∀ q ∈ inst, 0 ≤ support initDonors q.name - q.cost → q ∈ selected := by
  intro q hq he
  rcases hB q hq he with h | ⟨hc, hs⟩
  · exact h
  · exfalso
    have hmem : q ∈ eligibleBy cfg.eligible current donors :=
      eligible_of_support _ _ _ q (hcost q hq) hc hs
    rw [List.isEmpty_iff.mp hempty] at hmem
    simp at hmem

/-- Main correctness induction over the controller loop: from an invariant
state, any successfully returned final state satisfies the counting, subset,
initial-eligibility, and (for the elimination-with-transfers resolver)
capital-bound properties. -/
theorem cstvLoop_final (cfg : StrategyConfig) (inst : List Project) (initDonors : List Donor)
    (hnames : (namesOf inst).Nodup) (hcost : ∀ p ∈ inst, 0 < p.cost)
    (hmtpost : cfg.resolver = ResolverRule.minTransfer →
      cfg.post = PostRule.acceptUnderSupported) :
    ∀ (fuel innerFuel : ℕ) (s : RunState) (fs : RunState),
      Inv cfg inst initDonors s →
      cstvLoop cfg fuel innerFuel s = .ok fs →
      FinalOK cfg inst initDonors fs := by
  intro fuel
  induction fuel with
  | zero =>
      intro innerFuel s fs _ h
      exact absurd h (by simp [cstvLoop])
  | succ fuel ih =>
      intro innerFuel s fs hinv h
      obtain ⟨hperm, hewt, hj⟩ := hinv
      unfold cstvLoop at h
      by_cases hemp : s.current.isEmpty
      · rw [if_pos hemp] at h
        have hcur : s.current = [] := List.isEmpty_iff.mp hemp
        have hsel2 : ∀ q ∈ inst, 0 ≤ support initDonors q.name - q.cost → q ∈ s.selected := by
          rcases hj with hj | ⟨_, _, hj⟩
          · exact hj
          · intro q hq he
            rcases hj q hq he with h1 | ⟨h1, _⟩
            · exact h1
            · rw [hcur] at h1
              simp at h1
        exact postprocess_final cfg inst initDonors hnames hcost s _ fs hperm hsel2
          (fun hr => by rcases hewt hr with ⟨a, b, c⟩; exact ⟨a, b, c, rfl⟩) h
      · rw [if_neg hemp] at h
        have hcurne : s.current ≠ [] := by
          intro he
          rw [he] at hemp
          simp at hemp
        match hloop : no_eligible_loop cfg innerFuel s.current s.donors s.eliminated with
        | .error e =>
            rw [hloop] at h
            exact absurd h (by simp)
        | .ok (false, c', d', e') =>
            rw [hloop] at h
            dsimp only at h
            have hempty0 : (eligibleBy cfg.eligible s.current s.donors).isEmpty = true := by
              rcases no_eligible_loop_entry cfg innerFuel s.current s.donors s.eliminated _
                hloop with ⟨_, hres0⟩ | hempty0
              · exact absurd hres0 (by simp)
              · exact hempty0
            have hsel2 : ∀ q ∈ inst, 0 ≤ support initDonors q.name - q.cost →
                q ∈ s.selected := by
              rcases hj with hj | ⟨_, _, hj⟩
              · exact hj
              · exact jbranch_to_A cfg inst initDonors hcost s.current s.donors s.selected
                  hempty0 hj
            match hresolver : cfg.resolver with
            | ResolverRule.elimWithTransfers =>
                rcases no_eligible_loop_ewt cfg hresolver (namesOf inst) hnames innerFuel
                  s.current s.donors s.eliminated false c' d' e' hloop
                  (hewt hresolver).1 (hewt hresolver).2.1 with
                  ⟨hpermL, hkeysT, hnnT, htotT, _⟩
                have hpermT : ((c' : Multiset Project) + ↑s.selected + ↑e') = ↑inst := by
                  rw [← hperm]
                  exact add_shuffle1 _ _ _ _ _ hpermL
                refine postprocess_final cfg inst initDonors hnames hcost
                  ⟨c', s.selected, e', d'⟩ _ fs hpermT hsel2 ?_ h
                intro _
                refine ⟨hkeysT, hnnT, ?_, htotT.symm⟩
                show costSum s.selected + ledgerTotal d' ≤ ledgerTotal initDonors
                rw [htotT]
                exact (hewt hresolver).2.2
            | ResolverRule.minTransfer =>
                rcases no_eligible_loop_mt cfg hresolver innerFuel s.current s.donors
                  s.eliminated false c' d' e' hloop with ⟨hc, hel⟩
                subst hc
                rcases hel with hel | ⟨_, hel⟩
                · subst hel
                  have hpermT : ((s.current : Multiset Project) + ↑s.selected +
                      ↑s.eliminated) = ↑inst := hperm
                  refine postprocess_final cfg inst initDonors hnames hcost
                    ⟨s.current, s.selected, s.eliminated, d'⟩ _ fs hpermT hsel2 ?_ h
                  intro hr
                  rw [hresolver] at hr
                  exact absurd hr (by simp)
                · subst hel
                  exfalso
                  rcases hcur2 : s.current with _ | ⟨a, as⟩
                  · exact hcurne hcur2
                  · rw [hcur2] at h
                    unfold postprocessBy at h
                    rw [hmtpost hresolver] at h
                    rcases helimshape : s.eliminated ++ a :: as with _ | ⟨e0, erest⟩
                    · exact absurd helimshape (by simp)
                    · rw [helimshape, acceptance_two_param_cons (selectProcBy cfg.select)
                        (selectProcBy_paramCount cfg.select)] at h
                      exact absurd h (by simp)
        | .ok (true, c', d', e') =>
            rw [hloop] at h
            dsimp only at h
            have heligne : eligibleBy cfg.eligible c' d' ≠ [] := by
              have hft := no_eligible_loop_flag_true cfg innerFuel s.current s.donors
                s.eliminated c' d' e' hloop
              intro hnil
              rw [hnil] at hft
              simp at hft
            set tied := selectBy cfg.select (eligibleBy cfg.eligible c' d') d' with htied
            set P := (if tied.length > 1 then lexico_tie_breaking_untie tied
              else tied.headD defaultProject) with hP
            have htiedne : tied ≠ [] := by
              rw [htied]
              exact selectBy_ne_nil _ _ _ heligne
            have hPtied : P ∈ tied := by
              rw [hP]
              exact chosen_mem_tied tied htiedne
            have hPelig : P ∈ eligibleBy cfg.eligible c' d' := by
              rw [htied] at hPtied
              exact selectBy_subset _ _ _ _ hPtied
            have hPc : P ∈ c' := eligibleBy_subset _ _ _ _ hPelig
            have hTfacts : ((c' : Multiset Project) + ↑s.selected + ↑e') = ↑inst ∧
                (cfg.resolver = ResolverRule.elimWithTransfers →
                  (LedgerKeys d' (namesOf inst) ∧ LedgerNonneg d' ∧
                   ledgerTotal d' = ledgerTotal s.donors)) := by
              match hresolver : cfg.resolver with
              | ResolverRule.elimWithTransfers =>
                  rcases no_eligible_loop_ewt cfg hresolver (namesOf inst) hnames innerFuel
                    s.current s.donors s.eliminated true c' d' e' hloop
                    (hewt hresolver).1 (hewt hresolver).2.1 with
                    ⟨hpermL, hkeysT, hnnT, htotT, _⟩
                  refine ⟨?_, fun _ => ⟨hkeysT, hnnT, htotT⟩⟩
                  rw [← hperm]
                  exact add_shuffle1 _ _ _ _ _ hpermL
              | ResolverRule.minTransfer =>
                  rcases no_eligible_loop_mt cfg hresolver innerFuel s.current s.donors
                    s.eliminated true c' d' e' hloop with ⟨hc, hel⟩
                  subst hc
                  rcases hel with hel | ⟨habs, _⟩
                  · subst hel
                    exact ⟨hperm, fun hr => absurd hr (by simp)⟩
                  · exact absurd habs (by simp)
            obtain ⟨hpermT, hewtT⟩ := hTfacts
            have hPinst : P ∈ inst := by
              have h1 : P ∈ (c' : Multiset Project) := by simpa using hPc
              have hle : (c' : Multiset Project) ≤ ↑inst := by
                rw [← hpermT]
                calc (c' : Multiset Project) ≤ ↑c' + ↑s.selected :=
                      Multiset.le_add_right _ _
                  _ ≤ ↑c' + ↑s.selected + ↑e' := Multiset.le_add_right _ _
              simpa using Multiset.mem_of_le hle h1
            by_cases hex : 0 ≤ support d' P.name - P.cost
            · rw [if_pos hex] at h
              have hPname : P.name ∈ namesOf inst := List.mem_map.mpr ⟨P, hPinst, rfl⟩
              have hperm2 : (((c'.erase P : List Project) : Multiset Project) +
                  ↑(s.selected ++ [P]) + ↑e') = ↑inst := by
                have hkey : ((c'.erase P : List Project) : Multiset Project) +
                    ↑(s.selected ++ [P]) = ↑c' + ↑s.selected :=
                  coe_add_eq_of_perm _ _ _ _ (erase_append_perm c' P hPc s.selected)
                rw [hkey]
                exact hpermT
              have hcap2 : cfg.resolver = ResolverRule.elimWithTransfers →
                  (LedgerKeys (if float_0_01 < support d' P.name - P.cost then
                      excess_redistribution_procedure d' P.name
                        (P.cost / (support d' P.name - P.cost + P.cost))
                    else d'.map (fun d => dset d P.name 0)) (namesOf inst) ∧
                   LedgerNonneg (if float_0_01 < support d' P.name - P.cost then
                      excess_redistribution_procedure d' P.name
                        (P.cost / (support d' P.name - P.cost + P.cost))
                    else d'.map (fun d => dset d P.name 0)) ∧
                   costSum (s.selected ++ [P]) +
                    ledgerTotal (if float_0_01 < support d' P.name - P.cost then
                      excess_redistribution_procedure d' P.name
                        (P.cost / (support d' P.name - P.cost + P.cost))
                    else d'.map (fun d => dset d P.name 0)) ≤ ledgerTotal initDonors) := by
                intro hres2
                rcases hewtT hres2 with ⟨hkeysT, hnnT, htotT⟩
                have hff := funding_update_facts d' P (namesOf inst)
                  (support d' P.name - P.cost) rfl hkeysT hnames hPname
                  (hcost P hPinst) hex
                rcases hff with ⟨hffk, hffrest⟩
                rcases hffrest hnnT with ⟨hffn, hfft, _⟩
                refine ⟨hffk, hffn, ?_⟩
                rw [costSum_append]
                have hcap0 : costSum s.selected + ledgerTotal s.donors ≤
                    ledgerTotal initDonors := (hewt hres2).2.2
                have hcs : costSum [P] = P.cost := by simp [costSum]
                rw [hcs]
                rw [htotT] at hfft
                linarith
              have hj2 : (∀ q ∈ inst, 0 ≤ support initDonors q.name - q.cost →
                    q ∈ s.selected ++ [P]) ∨
                  (LedgerKeys (if float_0_01 < support d' P.name - P.cost then
                      excess_redistribution_procedure d' P.name
                        (P.cost / (support d' P.name - P.cost + P.cost))
                    else d'.map (fun d => dset d P.name 0)) (namesOf inst) ∧
                   LedgerNonneg (if float_0_01 < support d' P.name - P.cost then
                      excess_redistribution_procedure d' P.name
                        (P.cost / (support d' P.name - P.cost + P.cost))
                    else d'.map (fun d => dset d P.name 0)) ∧
                   ∀ q ∈ inst, 0 ≤ support initDonors q.name - q.cost →
                    q ∈ s.selected ++ [P] ∨ (q ∈ c'.erase P ∧ q.cost ≤
                      support (if float_0_01 < support d' P.name - P.cost then
                        excess_redistribution_procedure d' P.name
                          (P.cost / (support d' P.name - P.cost + P.cost))
                      else d'.map (fun d => dset d P.name 0)) q.name)) := by
                rcases no_eligible_loop_entry cfg innerFuel s.current s.donors s.eliminated _
                  hloop with ⟨_, hres0⟩ | hempty0
                · simp only [Prod.mk.injEq] at hres0
                  obtain ⟨-, hc0, hd0, he0⟩ := hres0
                  rcases hj with hA | ⟨hBk, hBn, hB⟩
                  · left
                    intro q hq he
                    exact List.mem_append_left _ (hA q hq he)
                  · right
                    rw [← hd0] at hBk hBn
                    have hff := funding_update_facts d' P (namesOf inst)
                      (support d' P.name - P.cost) rfl hBk hnames hPname
                      (hcost P hPinst) hex
                    rcases hff with ⟨hffk, hffrest⟩
                    rcases hffrest hBn with ⟨hffn, _, hffmono⟩
                    refine ⟨hffk, hffn, ?_⟩
                    intro q hq he
                    rcases hB q hq he with hqs | ⟨hqc, hqsup⟩
                    · exact Or.inl (List.mem_append_left _ hqs)
                    · by_cases hqP : q = P
                      · subst hqP
                        exact Or.inl (List.mem_append_right _ (by simp))
                      · refine Or.inr ⟨?_, ?_⟩
                        · rw [← hc0] at hqc
                          exact (List.mem_erase_of_ne hqP).mpr hqc
                        · have hqname : q.name ≠ P.name :=
                            name_inj_of_nodup inst hnames hq hPinst hqP
                          rw [← hd0] at hqsup
                          exact le_trans hqsup (hffmono q.name hqname)
                · left
                  rcases hj with hA | ⟨_, _, hB⟩
                  · intro q hq he
                    exact List.mem_append_left _ (hA q hq he)
                  · intro q hq he
                    exact List.mem_append_left _
                      (jbranch_to_A cfg inst initDonors hcost s.current s.donors
                        s.selected hempty0 hB q hq he)
              exact ih innerFuel ⟨c'.erase P, s.selected ++ [P], e',
                (if float_0_01 < support d' P.name - P.cost then
                    excess_redistribution_procedure d' P.name
                      (P.cost / (support d' P.name - P.cost + P.cost))
                  else d'.map (fun d => dset d P.name 0))⟩ fs
                ⟨hperm2, hcap2, hj2⟩ h
            · exfalso
              exact hex (eligible_excess_nonneg cfg.eligible c' d' P (hcost P hPinst) hPelig)

/-- Top-level corollary of the loop induction for the `cstv` entry point. -/
theorem cstv_final (cfg : StrategyConfig) (inst : PBInstance) (profile : List Ballot)
    (hnames : (namesOf inst.projects).Nodup) (hcost : ∀ p ∈ inst.projects, 0 < p.cost)
    (hpn : ProfileNonneg profile)
    (hmtpost : cfg.resolver = ResolverRule.minTransfer →
      cfg.post = PostRule.acceptUnderSupported)
    (fuel innerFuel : ℕ) (fs : RunState)
    (h : cstv cfg inst profile fuel innerFuel = .ok fs) :
    FinalOK cfg inst.projects (donationsOf inst profile) fs := by
  unfold cstv at h
  by_cases hval : ((profile.map (fun b => dsum b.entries)).dedup).length ≠ 1
  · rw [if_pos hval] at h
    exact absurd h (by simp)
  · rw [if_neg hval] at h
    exact cstvLoop_final cfg inst.projects (donationsOf inst profile) hnames hcost hmtpost
      fuel innerFuel _ fs (inv_init cfg inst profile hpn) h

theorem filter_count_le (inst : List Project) (hnodup : inst.Nodup) (sel : List Project)
    (p : Project → Bool) (hsub : ∀ q ∈ inst, p q = true → q ∈ sel) :
    (inst.filter p).length ≤ sel.length := by
  have hnd : (inst.filter p).Nodup := hnodup.filter _
  have hsubset : (inst.filter p) ⊆ sel := by
    intro q hq
    rw [List.mem_filter] at hq
    exact hsub q hq.1 hq.2
  exact (List.subperm_of_subset hnd hsubset).length_le

theorem mtLoop_error_kind (projects : List Project) (chosen : Project) (dsel : List ℕ)
    (elim : List Project) (fuel num : ℕ) (donors : List Donor) (r : ℚ) (e : CstvError)
    (hfuel : 10000 ≤ fuel + num)
    (h : mtLoop projects chosen dsel elim fuel num donors r = .error e) :
    e = CstvError.runtimeErrorLoopBound := by
  induction fuel generalizing num donors r with
  | zero =>
      unfold mtLoop at h
      by_cases h1 : 1 ≤ r
      · rw [if_pos h1] at h
        exact absurd h (by simp)
      · rw [if_neg h1] at h
        by_cases h2 : allOnChosen donors dsel chosen.name
        · rw [if_pos h2] at h
          exact absurd h (by simp)
        · rw [if_neg h2] at h
          have h3 : num + 1 > 10000 := by omega
          rw [if_pos h3] at h
          simp only [Except.error.injEq] at h
          exact h.symm
  | succ fuel ih =>
      unfold mtLoop at h
      by_cases h1 : 1 ≤ r
      · rw [if_pos h1] at h
        exact absurd h (by simp)
      · rw [if_neg h1] at h
        by_cases h2 : allOnChosen donors dsel chosen.name
        · rw [if_pos h2] at h
          exact absurd h (by simp)
        · rw [if_neg h2] at h
          by_cases h3 : num + 1 > 10000
          · rw [if_pos h3] at h
            simp only [Except.error.injEq] at h
            exact h.symm
          · rw [if_neg h3] at h
            exact ih (num + 1) _ _ (by omega) h

/-!
The ten claims.
-/

/-- C1: for every donor and every single redistribution step, the sum of the
donor's ledger entries is conserved exactly under exact-rational arithmetic.
Settled as corrected: the elimination transfer
(`distribute_project_support`) conserves each donor's sum exactly, but
`excess_redistribution_procedure` zeroes the funded project's entry after
distributing only the `1 - gama` share, so the donor's sum drops by
`gama` times the donation (or by the whole donation when the donor held
everything on the funded project). -/
theorem C1_redistribution_donor_sums (donor : Donor) (hnd : (dkeys donor).Nodup)
    (e sel : ℕ) (gama : ℚ) (hsel : sel ∈ dkeys donor) :
    dsum (distribute_project_support_donor e donor) = dsum donor ∧
    dsum (excess_redistribution_procedure_donor sel gama donor) =
      (if dsum (dset donor sel 0) ≠ 0 then dsum donor - gama * dget donor sel
       else dsum donor - dget donor sel) :=
  ⟨dpt_donor_dsum e donor hnd, erp_donor_dsum sel gama donor hnd hsel⟩

/-- Witness for C1 on the donor with entries 6 on project 0 and 2 on
project 1, funded project 0 with gama 2/3. -/
theorem C1_redistribution_donor_sums_witness :
    (dkeys [(0,6),(1,2)]).Nodup ∧ 0 ∈ dkeys [(0,6),(1,2)] ∧
    (dsum (distribute_project_support_donor 1 [(0,6),(1,2)]) = dsum [(0,6),(1,2)] ∧
     dsum (excess_redistribution_procedure_donor 0 (2/3) [(0,6),(1,2)]) =
      (if dsum (dset [(0,6),(1,2)] 0 0) ≠ 0 then
        dsum [(0,6),(1,2)] - (2/3) * dget [(0,6),(1,2)] 0
       else dsum [(0,6),(1,2)] - dget [(0,6),(1,2)] 0)) :=
  ⟨by decide, by decide,
   C1_redistribution_donor_sums [(0,6),(1,2)] (by decide) 1 0 (2/3) (by decide)⟩

/-- Counterexample to C1 as stated: after
`excess_redistribution_procedure` with gama 2/3, the donor holding 6 on the
funded project and 2 elsewhere ends with total 4, not 8. -/
theorem C1_erp_sum_not_conserved :
    dsum (excess_redistribution_procedure_donor 0 (2/3) [(0,6),(1,2)]) ≠
      dsum [(0,6),(1,2)] := by
  norm_num [excess_redistribution_procedure_donor, erpFold, dsum, dget, dset]

/-- C4: the preset dispatch.  Settled as a code bug: the third branch of the
dispatch is the always-truthy test `elif CSTV_Combination.MT:`, so the MTC
preset (and any non-preset value) receives the MT configuration — greedy-by-
excess selection and eligibility instead of the documented
support-over-cost pair — and the final `raise ValueError` is unreachable. -/
theorem C4_mtc_misconfigured :
    configure CombinationArg.MTC = documented_MT ∧
    configure CombinationArg.MTC ≠ documented_MTC ∧
    configure CombinationArg.otherValue = configure CombinationArg.MT := by
  decide

/-- C5: the three behaviours of `elimination_with_transfers`: on an empty
current list it returns False leaving everything unchanged; on a single
remaining project it moves that project to Eliminated with no transfer and
returns False; with two or more projects it picks the project minimizing
total donations minus cost, applies the elimination transfer to the ledger,
moves the project from the current list to Eliminated, and returns True.
Confirmed. -/
theorem C5_elimination_with_transfers_cases :
    (∀ donors elim, elimination_with_transfers [] donors elim = (false, [], donors, elim)) ∧
    (∀ p donors elim,
      elimination_with_transfers [p] donors elim = (false, [], donors, elim ++ [p])) ∧
    (∀ p q rest donors elim,
      elimination_with_transfers (p :: q :: rest) donors elim =
        (true,
          (p :: q :: rest).erase
            (argminKey (fun pr => support donors pr.name - pr.cost) p (q :: rest)),
          distribute_project_support donors
            (argminKey (fun pr => support donors pr.name - pr.cost) p (q :: rest)).name,
          elim ++ [argminKey (fun pr => support donors pr.name - pr.cost) p (q :: rest)]) ∧
      argminKey (fun pr => support donors pr.name - pr.cost) p (q :: rest) ∈ p :: q :: rest ∧
      ∀ x ∈ p :: q :: rest,
        support donors
            (argminKey (fun pr => support donors pr.name - pr.cost) p (q :: rest)).name -
          (argminKey (fun pr => support donors pr.name - pr.cost) p (q :: rest)).cost ≤
        support donors x.name - x.cost) := by
  refine ⟨fun donors elim => ewt_nil donors elim,
    fun p donors elim => ewt_single p donors elim, ?_⟩
  intro p q rest donors elim
  refine ⟨?_, argminKey_mem _ p (q :: rest),
    argminKey_le (fun pr => support donors pr.name - pr.cost) p (q :: rest)⟩
  show (if (p :: q :: rest).length < 2 then _ else _) = _
  rw [if_neg (by simp)]

/-- Witness for C5 on two concrete projects: project 0 (cost 27, support 5)
has the smaller excess and is eliminated. -/
theorem C5_elimination_with_transfers_witness :
    elimination_with_transfers [(⟨0,27⟩ : Project), ⟨1,30⟩] [[(0,5),(1,10)]] [] =
      (true,
        [(⟨0,27⟩ : Project), ⟨1,30⟩].erase
          (argminKey (fun pr => support [[(0,5),(1,10)]] pr.name - pr.cost) ⟨0,27⟩ [⟨1,30⟩]),
        distribute_project_support [[(0,5),(1,10)]]
          (argminKey (fun pr => support [[(0,5),(1,10)]] pr.name - pr.cost) ⟨0,27⟩
            [⟨1,30⟩]).name,
        [] ++ [argminKey (fun pr => support [[(0,5),(1,10)]] pr.name - pr.cost) ⟨0,27⟩
          [⟨1,30⟩]]) ∧
    argminKey (fun pr => support [[(0,5),(1,10)]] pr.name - pr.cost) ⟨0,27⟩ [⟨1,30⟩] ∈
      [(⟨0,27⟩ : Project), ⟨1,30⟩] := by
  have h := C5_elimination_with_transfers_cases.2.2 ⟨0,27⟩ ⟨1,30⟩ [] [[(0,5),(1,10)]] []
  exact ⟨h.1, h.2.1⟩

/-- C7: the acceptance post-processor on a non-empty Eliminated list with the
GE or GSC selection strategy.  Settled as a code bug: the loop calls the
selection procedure with four positional arguments while `select_project_GE`
and `select_project_GSC` declare exactly two parameters, so the call raises
`TypeError` instead of performing the documented reinstatement loop. -/
theorem C7_acceptance_arity_error :
    (∀ fuel selected donors e elimRest budget,
      acceptance_of_under_supported_projects select_project_ge_proc fuel selected donors
        (e :: elimRest) budget = .error CstvError.typeErrorArity) ∧
    (∀ fuel selected donors e elimRest budget,
      acceptance_of_under_supported_projects select_project_gsc_proc fuel selected donors
        (e :: elimRest) budget = .error CstvError.typeErrorArity) := by
  constructor
  · intro fuel selected donors e elimRest budget
    exact acceptance_two_param_cons select_project_ge_proc rfl fuel selected donors e
      elimRest budget
  · intro fuel selected donors e elimRest budget
    exact acceptance_two_param_cons select_project_gsc_proc rfl fuel selected donors e
      elimRest budget

/-- C9: the eliminated project's ledger entry after the elimination transfer.
Settled as corrected: the entry is zeroed for every donor whose remaining
total on the other projects is nonzero, but a donor holding its entire
remaining capital on the eliminated project is skipped by the
`total == 0: continue` guard, so its entry is left untouched. -/
theorem C9_eliminated_entry_zeroing (donor : Donor) (hnd : (dkeys donor).Nodup) (e : ℕ) :
    dget (distribute_project_support_donor e donor) e =
      (if dsum donor - dget donor e = 0 then dget donor e else 0) := by
  rw [dpt_donor_get e e donor hnd]
  by_cases h : dsum donor - dget donor e = 0
  · rw [if_pos h, if_pos h]
  · rw [if_neg h, if_neg h, if_pos rfl]

/-- Witness for C9 on the donor with 4 on the eliminated project 0 and 4 on
project 1: the entry for project 0 is zeroed. -/
theorem C9_eliminated_entry_zeroing_witness :
    (dkeys [(0,4),(1,4)]).Nodup ∧
    dget (distribute_project_support_donor 0 [(0,4),(1,4)]) 0 =
      (if dsum [(0,4),(1,4)] - dget [(0,4),(1,4)] 0 = 0 then dget [(0,4),(1,4)] 0 else 0) :=
  ⟨by decide, C9_eliminated_entry_zeroing [(0,4),(1,4)] (by decide) 0⟩

/-- Counterexample to C9 as stated: a donor with its entire remaining capital
(5) on the eliminated project 0 keeps that entry after the transfer. -/
theorem C9_all_on_eliminated_entry_kept :
    distribute_project_support [[(0,5),(1,0)]] 0 = [[(0,5),(1,0)]] ∧
    dget (distribute_project_support_donor 0 [(0,5),(1,0)]) 0 ≠ 0 := by
  constructor
  · norm_num [distribute_project_support, distribute_project_support_donor, dsum, dget]
  · norm_num [distribute_project_support_donor, dsum, dget]

/-- C10: `cstv` on an empty profile.  Confirmed: the validation computes
`len(set(...)) == 1` over the per-donor totals, the set is empty for an
empty profile, so the unequal-donations `ValueError` is raised even though
the all-totals-equal condition is vacuously true. -/
theorem C10_empty_profile_value_error (cfg : StrategyConfig) (inst : PBInstance)
    (fuel innerFuel : ℕ) :
    cstv cfg inst [] fuel innerFuel = .error CstvError.valueErrorUnequalDonations := rfl

/-- C2: the total cost of the returned allocation against the budget.
Settled as corrected: `cstv` never reads the instance's `budget_limit`
attribute (the first conjunct: the run result is unchanged under any value
of it); the bound that does hold, under the elimination-with-transfers
presets on a nonnegative profile, is against the de-facto budget, the total
donor capital of the profile. -/
theorem C2_capital_is_the_budget (cfg : StrategyConfig) (inst : PBInstance)
    (profile : List Ballot) (hnames : (namesOf inst.projects).Nodup)
    (hcost : ∀ p ∈ inst.projects, 0 < p.cost) (hpn : ProfileNonneg profile)
    (hres : cfg.resolver = ResolverRule.elimWithTransfers)
    (fuel innerFuel : ℕ) (fs : RunState)
    (h : cstv cfg inst profile fuel innerFuel = .ok fs) :
    (∀ b, cstv cfg ⟨inst.projects, b⟩ profile fuel innerFuel = .ok fs) ∧
    costSum fs.selected ≤ ledgerTotal (donationsOf inst profile) := by
  constructor
  · intro b
    exact h
  · have hf := cstv_final cfg inst profile hnames hcost hpn
      (fun hmt => absurd (hres.symm.trans hmt) (by simp)) fuel innerFuel fs h
    exact hf.2.2.2 hres

/-- Witness for C2: the EWT run on one project of cost 10 with a single
donation of 10; the returned allocation is the same under budget limit 77,
and its cost is within the donor capital. -/
theorem C2_capital_is_the_budget_witness :
    cstv documented_EWT ⟨[⟨0,10⟩], 77⟩ [⟨[(0,10)],1⟩] 2 1 =
      .ok ⟨[], [⟨0,10⟩], [], [[(0,0)]]⟩ ∧
    costSum (RunState.selected ⟨[], [⟨0,10⟩], [], [[(0,0)]]⟩) ≤
      ledgerTotal (donationsOf ⟨[⟨0,10⟩], 5⟩ [⟨[(0,10)],1⟩]) := by
  have h := C2_capital_is_the_budget documented_EWT ⟨[⟨0,10⟩], 5⟩ [⟨[(0,10)],1⟩]
    (by decide)
    (by intro p hp; rw [List.mem_singleton] at hp; subst hp; norm_num)
    (by
      intro b hb
      rw [List.mem_singleton] at hb
      subst hb
      refine ⟨by norm_num, ?_⟩
      intro kv hkv
      rw [List.mem_singleton] at hkv
      subst hkv
      norm_num)
    rfl 2 1 ⟨[], [⟨0,10⟩], [], [[(0,0)]]⟩
    (by norm_num [cstv, cstvLoop, no_eligible_loop, resolverBy, postprocessBy, donationsOf,
      documented_EWT, eligibleBy, is_eligible_ge, support, selectBy, select_project_ge,
      listMax, lexico_tie_breaking_untie, ledgerTotal, reverse_eliminations,
      elimination_with_transfers, argminKey, distribute_project_support,
      distribute_project_support_donor, dptFold, dsum, dget, dset, dkeys, float_0_01,
      excess_redistribution_procedure, excess_redistribution_procedure_donor, erpFold,
      List.dedup, List.insert])
  exact ⟨h.1 77, h.2⟩

/-- Counterexample to C2 as stated: an instance whose `budget_limit` is 5
while the sole project costs 10 and the sole donor gives 10; the run selects
the project, so the allocation's cost exceeds the budget limit. -/
theorem C2_budget_limit_exceeded :
    cstv documented_EWT ⟨[⟨0,10⟩], 5⟩ [⟨[(0,10)],1⟩] 2 1 =
      .ok ⟨[], [⟨0,10⟩], [], [[(0,0)]]⟩ ∧
    (⟨[⟨0,10⟩], 5⟩ : PBInstance).budget_limit < costSum [(⟨0,10⟩ : Project)] := by
  constructor
  · norm_num [cstv, cstvLoop, no_eligible_loop, resolverBy, postprocessBy, donationsOf,
      documented_EWT, eligibleBy, is_eligible_ge, support, selectBy, select_project_ge,
      listMax, lexico_tie_breaking_untie, ledgerTotal, reverse_eliminations,
      elimination_with_transfers, argminKey, distribute_project_support,
      distribute_project_support_donor, dptFold, dsum, dget, dset, dkeys, float_0_01,
      excess_redistribution_procedure, excess_redistribution_procedure_donor, erpFold,
      List.dedup, List.insert]
  · norm_num [costSum]

/-- C3: the partition invariant and the per-round decrease of the current
project set.  Settled as corrected: through the no-eligible loop and the
funding step of one round of the main loop the three collections partition
the instance as a multiset (hence pairwise disjoint, the instance having
distinct projects) and the current collection strictly shrinks; but the
`reverse_eliminations` post-processing appends reinstated projects to
Selected without removing them from Eliminated, so the final state's
Selected and Eliminated can overlap (see the counterexample). -/
theorem C3_round_partition_decrease (cfg : StrategyConfig) (inst : List Project)
    (hnames : (namesOf inst).Nodup)
    (current selected eliminated : List Project) (donors : List Donor)
    (hperm : ((current : Multiset Project) + ↑selected + ↑eliminated) = ↑inst)
    (hewt : cfg.resolver = ResolverRule.elimWithTransfers →
      LedgerKeys donors (namesOf inst) ∧ LedgerNonneg donors)
    (innerFuel : ℕ) (c' : List Project) (d' : List Donor) (e' : List Project)
    (hloop : no_eligible_loop cfg innerFuel current donors eliminated =
      .ok (true, c', d', e')) :
    ((if (selectBy cfg.select (eligibleBy cfg.eligible c' d') d').length > 1 then
        lexico_tie_breaking_untie (selectBy cfg.select (eligibleBy cfg.eligible c' d') d')
      else
        (selectBy cfg.select (eligibleBy cfg.eligible c' d') d').headD defaultProject) ∈
      c') ∧
    ∀ Q ∈ c',
      (((c'.erase Q : List Project) : Multiset Project) + ↑(selected ++ [Q]) + ↑e') =
        ↑inst ∧
      (c'.erase Q).length < current.length := by
  have heligne : eligibleBy cfg.eligible c' d' ≠ [] := by
    have hft := no_eligible_loop_flag_true cfg innerFuel current donors eliminated
      c' d' e' hloop
    intro hnil
    rw [hnil] at hft
    simp at hft
  have hTfacts : (((c' : Multiset Project) + ↑e') = ↑current + ↑eliminated) ∧
      c'.length ≤ current.length := by
    match hresolver : cfg.resolver with
    | ResolverRule.elimWithTransfers =>
        rcases no_eligible_loop_ewt cfg hresolver (namesOf inst) hnames innerFuel
          current donors eliminated true c' d' e' hloop
          (hewt hresolver).1 (hewt hresolver).2 with ⟨hpermL, _, _, _, hlen⟩
        exact ⟨hpermL, hlen⟩
    | ResolverRule.minTransfer =>
        rcases no_eligible_loop_mt cfg hresolver innerFuel current donors eliminated
          true c' d' e' hloop with ⟨hc, hel⟩
        subst hc
        rcases hel with hel | ⟨habs, _⟩
        · subst hel
          exact ⟨rfl, le_refl _⟩
        · exact absurd habs (by simp)
  obtain ⟨hpermL, hlen⟩ := hTfacts
  constructor
  · have htiedne : selectBy cfg.select (eligibleBy cfg.eligible c' d') d' ≠ [] :=
      selectBy_ne_nil _ _ _ heligne
    have hPtied := chosen_mem_tied _ htiedne
    exact eligibleBy_subset _ _ _ _ (selectBy_subset _ _ _ _ hPtied)
  · intro Q hQ
    constructor
    · have hkey : ((c'.erase Q : List Project) : Multiset Project) + ↑(selected ++ [Q]) =
          ↑c' + ↑selected :=
        coe_add_eq_of_perm _ _ _ _ (erase_append_perm c' Q hQ selected)
      rw [hkey, ← hperm]
      exact add_shuffle1 _ _ _ _ _ hpermL
    · have h1 : (c'.erase Q).length = c'.length - 1 := List.length_erase_of_mem hQ
      have h2 : 0 < c'.length := List.length_pos.mpr (List.ne_nil_of_mem hQ)
      omega

/-- Witness for C3 on the one-project EWT round that funds project 0. -/
theorem C3_round_partition_decrease_witness :
    ((if (selectBy documented_EWT.select
          (eligibleBy documented_EWT.eligible [(⟨0,10⟩ : Project)] [[(0,10)]])
          [[(0,10)]]).length > 1 then
        lexico_tie_breaking_untie (selectBy documented_EWT.select
          (eligibleBy documented_EWT.eligible [(⟨0,10⟩ : Project)] [[(0,10)]]) [[(0,10)]])
      else
        (selectBy documented_EWT.select
          (eligibleBy documented_EWT.eligible [(⟨0,10⟩ : Project)] [[(0,10)]])
          [[(0,10)]]).headD defaultProject) ∈ [(⟨0,10⟩ : Project)]) ∧
    ((([(⟨0,10⟩ : Project)].erase ⟨0,10⟩ : List Project) : Multiset Project) +
        ↑(([] : List Project) ++ [(⟨0,10⟩ : Project)]) + ↑([] : List Project)) =
      (↑[(⟨0,10⟩ : Project)] : Multiset Project) ∧
    ([(⟨0,10⟩ : Project)].erase ⟨0,10⟩).length < [(⟨0,10⟩ : Project)].length := by
  have h := C3_round_partition_decrease documented_EWT [⟨0,10⟩] (by decide)
    [⟨0,10⟩] [] [] [[(0,10)]] (by simp)
    (fun _ => ⟨by
      intro d hd
      rw [List.mem_singleton] at hd
      subst hd
      rfl, by
      intro d hd
      rw [List.mem_singleton] at hd
      subst hd
      intro k
      match k with
      | 0 => norm_num [dget]
      | k + 1 => norm_num [dget]⟩)
    1 [⟨0,10⟩] [[(0,10)]] []
    (by norm_num [no_eligible_loop, documented_EWT, eligibleBy, is_eligible_ge,
      support, dget])
  exact ⟨h.1, (h.2 ⟨0,10⟩ (by simp)).1, (h.2 ⟨0,10⟩ (by simp)).2⟩

/-- Counterexample to C3 as stated: after the run on projects 0 (cost 4) and
1 (cost 10) with donations 1 and 8, project 0 is reinstated by
`reverse_eliminations` yet stays in Eliminated, so the final Selected and
Eliminated lists both contain it. -/
theorem C3_selected_eliminated_overlap :
    cstv documented_EWT ⟨[⟨0,4⟩,⟨1,10⟩], 100⟩ [⟨[(0,1),(1,8)],1⟩] 3 10 =
      .ok ⟨[], [⟨0,4⟩], [⟨0,4⟩,⟨1,10⟩], [[(0,0),(1,9)]]⟩ ∧
    (⟨0,4⟩ : Project) ∈ RunState.selected ⟨[], [⟨0,4⟩], [⟨0,4⟩,⟨1,10⟩], [[(0,0),(1,9)]]⟩ ∧
    (⟨0,4⟩ : Project) ∈ RunState.eliminated ⟨[], [⟨0,4⟩], [⟨0,4⟩,⟨1,10⟩], [[(0,0),(1,9)]]⟩ := by
  refine ⟨?_, by simp, by simp⟩
  norm_num [cstv, cstvLoop, no_eligible_loop, resolverBy, postprocessBy, donationsOf,
      documented_EWT, eligibleBy, is_eligible_ge, support, selectBy, select_project_ge,
      listMax, lexico_tie_breaking_untie, ledgerTotal, reverse_eliminations,
      elimination_with_transfers, argminKey, distribute_project_support,
      distribute_project_support_donor, dptFold, dsum, dget, dset, dkeys, float_0_01,
      excess_redistribution_procedure, excess_redistribution_procedure_donor, erpFold,
      List.dedup, List.insert]

/-- C6: the error discipline of `minimal_transfer`.  Confirmed: every error
it surfaces is the iteration-bound `RuntimeError` of the convergence loop
(first conjunct), while the structural deadlock — every donor of the chosen
project already holding all of its capital on it — returns the normal
failure signal False with all remaining projects appended to Eliminated
(second conjunct). -/
theorem C6_minimal_transfer_error_discipline :
    (∀ selProc projects donors elim e,
      minimal_transfer selProc projects donors elim = .error e →
      e = CstvError.runtimeErrorLoopBound) ∧
    (∀ projects chosen dsel elim fuel num donors r, r < 1 →
      allOnChosen donors dsel chosen.name = true →
      mtLoop projects chosen dsel elim fuel num donors r =
        .ok (false, donors, elim ++ projects)) := by
  constructor
  · intro selProc projects donors elim e h
    unfold minimal_transfer at h
    by_cases hc : (projects.filter
        (fun proj => decide (proj.cost ≤ sumOfDon donors proj.name))).isEmpty
    · rw [if_pos hc] at h
      exact absurd h (by simp)
    · rw [if_neg hc] at h
      exact mtLoop_error_kind _ _ _ _ 10001 0 _ _ e (by omega) h
  · intro projects chosen dsel elim fuel num donors r h1 h2
    unfold mtLoop
    rw [if_neg (not_le.mpr h1), if_pos h2]

/-- Witness for C6: the deadlocked state with one donor holding all 5 of its
capital on the chosen project (cost 20, ratio 1/4): the loop returns False
and eliminates the remaining project. -/
theorem C6_minimal_transfer_error_discipline_witness :
    mtLoop [(⟨1,7⟩ : Project)] ⟨0,20⟩ [0] [] 5 0 [[(0,5),(1,0)]] (1/4) =
      .ok (false, [[(0,5),(1,0)]], [] ++ [(⟨1,7⟩ : Project)]) := by
  exact C6_minimal_transfer_error_discipline.2 [⟨1,7⟩] ⟨0,20⟩ [0] [] 5 0
    [[(0,5),(1,0)]] (1/4) (by norm_num) (by norm_num [allOnChosen, dsum, dget])

/-- C8: the output bounds of a run.  Settled as corrected: on a profile with
nonnegative donations the selected count is at most the project count and at
least the count of projects with nonnegative initial excess, and under the
elimination-with-transfers presets the selected cost is within the total
donor capital; but the entry validation accepts negative donations, under
which the capital bound fails (see the counterexample). -/
theorem C8_output_bounds (cfg : StrategyConfig) (inst : PBInstance) (profile : List Ballot)
    (hnames : (namesOf inst.projects).Nodup) (hcost : ∀ p ∈ inst.projects, 0 < p.cost)
    (hpn : ProfileNonneg profile)
    (hmtpost : cfg.resolver = ResolverRule.minTransfer →
      cfg.post = PostRule.acceptUnderSupported)
    (fuel innerFuel : ℕ) (fs : RunState)
    (h : cstv cfg inst profile fuel innerFuel = .ok fs) :
    fs.selected.length ≤ inst.projects.length ∧
    (inst.projects.filter (fun q =>
      decide (0 ≤ support (donationsOf inst profile) q.name - q.cost))).length ≤
      fs.selected.length ∧
    (cfg.resolver = ResolverRule.elimWithTransfers →
      costSum fs.selected ≤ ledgerTotal (donationsOf inst profile)) := by
  obtain ⟨hnodup, hsub, helig, hcap⟩ :=
    cstv_final cfg inst profile hnames hcost hpn hmtpost fuel innerFuel fs h
  refine ⟨?_, ?_, hcap⟩
  · exact (List.subperm_of_subset hnodup (fun a ha => hsub a ha)).length_le
  · exact filter_count_le inst.projects (List.Nodup.of_map Project.name hnames)
      fs.selected _ (fun q hq hpq => helig q hq (of_decide_eq_true hpq))

/-- Witness for C8 on the one-project EWT run with donor capital 10. -/
theorem C8_output_bounds_witness :
    (RunState.selected ⟨[], [⟨0,10⟩], [], [[(0,0)]]⟩).length ≤
      [(⟨0,10⟩ : Project)].length ∧
    ([(⟨0,10⟩ : Project)].filter (fun q =>
      decide (0 ≤ support (donationsOf ⟨[⟨0,10⟩], 5⟩ [⟨[(0,10)],1⟩]) q.name - q.cost))).length ≤
      (RunState.selected ⟨[], [⟨0,10⟩], [], [[(0,0)]]⟩).length ∧
    (documented_EWT.resolver = ResolverRule.elimWithTransfers →
      costSum (RunState.selected ⟨[], [⟨0,10⟩], [], [[(0,0)]]⟩) ≤
        ledgerTotal (donationsOf ⟨[⟨0,10⟩], 5⟩ [⟨[(0,10)],1⟩])) := by
  exact C8_output_bounds documented_EWT ⟨[⟨0,10⟩], 5⟩ [⟨[(0,10)],1⟩] (by decide)
    (by intro p hp; rw [List.mem_singleton] at hp; subst hp; norm_num)
    (by
      intro b hb
      rw [List.mem_singleton] at hb
      subst hb
      refine ⟨by norm_num, ?_⟩
      intro kv hkv
      rw [List.mem_singleton] at hkv
      subst hkv
      norm_num)
    (by decide) 2 1 ⟨[], [⟨0,10⟩], [], [[(0,0)]]⟩
    (by norm_num [cstv, cstvLoop, no_eligible_loop, resolverBy, postprocessBy, donationsOf,
      documented_EWT, eligibleBy, is_eligible_ge, support, selectBy, select_project_ge,
      listMax, lexico_tie_breaking_untie, ledgerTotal, reverse_eliminations,
      elimination_with_transfers, argminKey, distribute_project_support,
      distribute_project_support_donor, dptFold, dsum, dget, dset, dkeys, float_0_01,
      excess_redistribution_procedure, excess_redistribution_procedure_donor, erpFold,
      List.dedup, List.insert])

/-- Counterexample to C8 as stated: the validation accepts the ballot giving
12 to project 0 and -2 to project 1; the run selects project 0 of cost 12
while the total donor capital is 10. -/
theorem C8_capital_bound_violated :
    cstv documented_EWT ⟨[⟨0,12⟩,⟨1,5⟩], 100⟩ [⟨[(0,12),(1,-2)],1⟩] 3 10 =
      .ok ⟨[], [⟨0,12⟩], [⟨1,5⟩], [[(0,0),(1,-2)]]⟩ ∧
    ledgerTotal (donationsOf ⟨[⟨0,12⟩,⟨1,5⟩], 100⟩ [⟨[(0,12),(1,-2)],1⟩]) <
      costSum (RunState.selected ⟨[], [⟨0,12⟩], [⟨1,5⟩], [[(0,0),(1,-2)]]⟩) := by
  constructor
  · norm_num [cstv, cstvLoop, no_eligible_loop, resolverBy, postprocessBy, donationsOf,
      documented_EWT, eligibleBy, is_eligible_ge, support, selectBy, select_project_ge,
      listMax, lexico_tie_breaking_untie, ledgerTotal, reverse_eliminations,
      elimination_with_transfers, argminKey, distribute_project_support,
      distribute_project_support_donor, dptFold, dsum, dget, dset, dkeys, float_0_01,
      excess_redistribution_procedure, excess_redistribution_procedure_donor, erpFold,
      List.dedup, List.insert]
  · norm_num [ledgerTotal, donationsOf, dsum, dget, costSum]

end CSTV
